import Mathlib

/-! Frontmatter splitting, record assembly and query projection of fmd2json.

A shallow embedding of `fmd2json.go` and `jq.go` (package `fmd2json`):

* Go strings are sequences of bytes (`Str`);
* `strings.HasPrefix`, `strings.HasSuffix`, `strings.Index` and the slice
  expressions `s[lo:]`, `s[:hi]` are modelled by their documented behaviour,
  slices returning `none` where Go panics with "slice bounds out of range";
* the YAML decoder, the `gojq` query engine, `json.Marshal`, the file system and standard
  input are external collaborators and are taken as parameters; the `flag` package is
  modelled by its documented parsing rules;
* a Go `map[string]any` is a finite map with unique keys (`AList`), `nil` being `none`;
* an `io.Writer` is the sequence of bytes written to it so far.
-/

namespace Fmd2json

/-! ## Strings -/

/-- One byte of a Go string. -/
abbrev Byte := Fin 256

/-- A Go `string` (equivalently the `[]byte` it is converted from). -/
abbrev Str := List Byte

/-- The bytes of an ASCII string literal of the source. -/
def bytes (s : String) : Str := s.toList.map (fun c => Fin.ofNat c.toNat)

/-- Go `strings.HasPrefix(s, prefix)`:
`len(s) >= len(prefix) && s[:len(prefix)] == prefix`. -/
def HasPrefix (s pre : Str) : Bool :=
  decide (pre.length ≤ s.length) && (s.take pre.length == pre)

/-- Go `strings.HasSuffix(s, suffix)`:
`len(s) >= len(suffix) && s[len(s)-len(suffix):] == suffix`. -/
def HasSuffix (s suf : Str) : Bool :=
  decide (suf.length ≤ s.length) && (s.drop (s.length - suf.length) == suf)

/-- Search loop of `strings.Index`: `s` is what remains of the string from offset `i` on. -/
def indexFrom (substr : Str) : Str → Nat → Int
  | [], i => if HasPrefix [] substr then (i : Int) else -1
  | c :: s, i => if HasPrefix (c :: s) substr then (i : Int) else indexFrom substr s (i + 1)

/-- Go `strings.Index(s, substr)`: the offset of the first instance of `substr` in `s`,
or `-1` when `substr` is not present in `s`. -/
def Index (s substr : Str) : Int := indexFrom substr s 0

/-- Go slice expression `s[lo:]`; `none` is the run-time panic for `lo` out of range. -/
def sliceFrom (s : Str) (lo : Int) : Option Str :=
  if 0 ≤ lo ∧ lo ≤ (s.length : Int) then some (s.drop lo.toNat) else none

/-- Go slice expression `s[:hi]`; `none` is the run-time panic for `hi` out of range. -/
def sliceTo (s : Str) (hi : Int) : Option Str :=
  if 0 ≤ hi ∧ hi ≤ (s.length : Int) then some (s.take hi.toNat) else none

/-! ## Values and maps -/

/-- A Go value of type `any` as the YAML decoder produces it and `buildResult` stores it:
a tagged variant. `float64` carries the IEEE-754 bit pattern. -/
inductive Value where
  | null
  | bool (b : Bool)
  | int (i : Int)
  | uint (n : Nat)
  | float64 (bits : Nat)
  | str (s : Str)
  | seq (items : List Value)
  | map (entries : List (Str × Value))

/-- A non-nil Go `map[string]any`: finitely many entries, no key twice. The order of
`entries` stands for the (unspecified) order in which `range` visits the map. -/
abbrev GoMap := AList (fun _ : Str => Value)

/-- A Go `map[string]any` variable: `none` is the `nil` map. -/
abbrev Props := Option GoMap

/-! ## Frontmatter splitter (`parseFrontmatter`, `parseYAML`) -/

/-- Go `parseYAML`: runs the external YAML decoder on `content`; a decode error gives the
`nil` map, otherwise the decoded map (which the decoder may itself leave `nil`). -/
def parseYAML {ε : Type} (decode : Str → Except ε Props) (content : Str) : Props :=
  match decode content with
  | .error _ => none
  | .ok props => props

/-- What `parseFrontmatter` returns, together with a ghost trace `decoded` of the texts it
handed to `parseYAML`, in call order. -/
structure ParseResult where
  props : Props
  body : Str
  decoded : List Str

/-- Go `parseFrontmatter`. `none` is a run-time panic of a slice expression. -/
def parseFrontmatter {ε : Type} (decode : Str → Except ε Props) (data : Str) :
    Option ParseResult :=
  let content := data
  if !HasPrefix content (bytes "---\n") && !HasPrefix content (bytes "---\r\n") then
    some ⟨none, content, []⟩
  else do
    let rest ← sliceFrom content 4
    let idx := Index rest (bytes "\n---\n")
    let idxR := Index rest (bytes "\r\n---\r\n")
    if idx < 0 ∧ idxR < 0 then
      let idx :=
        if HasSuffix rest (bytes "\n---") then (rest.length : Int) - 4
        else if HasSuffix rest (bytes "\r\n---") then (rest.length : Int) - 5
        else idx
      if idx < 0 then
        some ⟨none, content, []⟩
      else do
        let yamlContent ← sliceTo rest idx
        let props := parseYAML decode yamlContent
        some ⟨props, [], [yamlContent]⟩
    else if 0 ≤ idx ∧ (idxR < 0 ∨ idx ≤ idxR) then do
      let yamlContent ← sliceTo rest idx
      let body ← sliceFrom rest (idx + 5)
      let props := parseYAML decode yamlContent
      some ⟨props, body, [yamlContent]⟩
    else do
      let yamlContent ← sliceTo rest idxR
      let body ← sliceFrom rest (idxR + 7)
      let props := parseYAML decode yamlContent
      some ⟨props, body, [yamlContent]⟩

/-! ## Specification vocabulary -/

/-- The text `substr` occurs in `s` at byte offset `j`. -/
def occursAt (s substr : Str) (j : Nat) : Prop := substr <+: s.drop j

instance (s substr : Str) (j : Nat) : Decidable (occursAt s substr j) :=
  inferInstanceAs (Decidable (substr <+: s.drop j))

/-- A toy decoder for concrete runs: it accepts every text and returns it under the key
`text`. -/
def sampleDecode : Str → Except Unit Props :=
  fun t => .ok (some (AList.singleton (bytes "text") (Value.str t)))

/-- The newline-only closing boundary. -/
def closeLF : Str := bytes "\n---\n"

/-- The carriage-return closing boundary. -/
def closeCRLF : Str := bytes "\r\n---\r\n"

/-- The text `"\n---"` that may end a header-only document. -/
def tailLF : Str := bytes "\n---"

/-! ## Record assembler (`warnConflicts`, `buildResult`) -/

/-- Go package variable `defaultPropertyNames`. -/
def defaultPropertyNames : List Str := [bytes "filename", bytes "body", bytes "mtime"]

/-- Rendering of the verb `%q` (`strconv.Quote`) for text made of printable ASCII bytes: the
text between double quotes, a backslash before each `"` and `\`. The only texts ever
formatted are the three `defaultPropertyNames`, which hold no byte to escape. -/
def quote (s : Str) : Str :=
  [34] ++ s.flatMap (fun b => if b = 34 ∨ b = 92 then [92, b] else [b]) ++ [34]

/-- The text `fmt.Fprintf` produces in `warnConflicts` for the conflicting key `name`. -/
def conflictWarning (name : Str) : Str :=
  bytes "warning: frontmatter property " ++ quote name
    ++ bytes " conflicts with default property, using default value\n"

/-- Go `warnConflicts`: `errStream` is what the diagnostics sink holds before the call, the
result what it holds after. -/
def warnConflicts (props : Props) (errStream : Str) : Str :=
  match props with
  | none => errStream
  | some p =>
    defaultPropertyNames.foldl
      (fun w name => if name ∈ p then w ++ conflictWarning name else w) errStream

/-- The entries a `range` loop over `props` visits: none for the `nil` map. -/
def rangeEntries (props : Props) : List (Sigma fun _ : Str => Value) :=
  match props with
  | none => []
  | some p => p.entries

/-- The two maps in scope in `buildResult`: the caller's `props` (a Go map is shared by
reference) and the freshly made `result`. -/
structure BuildState where
  props : Props
  result : GoMap

/-- Go `buildResult`, as the final state of both maps; the function returns `result`. -/
def buildResult (props : Props) (filename body : Str) (mtime : Option Str) : BuildState :=
  let st : BuildState := ⟨props, ∅⟩
  let st := (rangeEntries props).foldl
    (fun st e => { st with result := st.result.insert e.1 e.2 }) st
  let st := { st with result := st.result.insert (bytes "filename") (Value.str filename) }
  let st := { st with result := st.result.insert (bytes "body") (Value.str body) }
  match mtime with
  | some t => { st with result := st.result.insert (bytes "mtime") (Value.str t) }
  | none => st

/-- Go `v, ok := props[k]` as an optional value; reading the `nil` map finds nothing. -/
def getProp (props : Props) (k : Str) : Option Value :=
  match props with
  | none => none
  | some p => p.lookup k

/-- Whether `k` is a key of `props` (the `ok` of `_, ok := props[k]`). -/
def hasProp (props : Props) (k : Str) : Bool :=
  match props with
  | none => false
  | some p => decide (k ∈ p)

/-- Number of newline bytes of a text, that is, of complete lines. -/
def lineCount (s : Str) : Nat := s.count 10

/-! ## Query projector (`jq.go`: `applyJQ`, `scalarToString`) -/

/-- The errors `FlagSet.Parse` returns: `bad flag syntax: %s`, `flag.ErrHelp`,
`flag provided but not defined: -%s`, `invalid boolean value %q for -%s: %v`. -/
inductive FlagError where
  | badSyntax (arg : Str)
  | help
  | notDefined (name : Str)
  | invalidBool (value name : Str)

/-- A Go `error` value: one made by an external package, one made by
`fmt.Errorf(text + "%w", cause)`, or one returned by `FlagSet.Parse`. -/
inductive GoError (ε : Type) where
  | ext (e : ε)
  | errorf (text : Str) (cause : GoError ε)
  | flag (e : FlagError)

/-- The two operations on `float64` that `scalarToString` uses, both external:
`isIntegral val` is `math.Trunc(val) == val` and `format val prec` is
`strconv.FormatFloat(val, 'f', prec, 64)`; a `float64` is given by its bit pattern. -/
structure FloatOps where
  isIntegral : Nat → Bool
  format : Nat → Int → Str

/-- Go `strconv.Itoa`: the decimal numeral of an integer, `-` in front of a negative one. -/
def Itoa (i : Int) : Str :=
  if i < 0 then 45 :: (Nat.toDigits 10 i.natAbs).map (fun c => Fin.ofNat c.toNat)
  else (Nat.toDigits 10 i.natAbs).map (fun c => Fin.ofNat c.toNat)

/-- Go `strconv.FormatBool`. -/
def FormatBool (b : Bool) : Str := if b then bytes "true" else bytes "false"

/-- Go `scalarToString`; `none` is the returned error `not a scalar: %T`. The type switch
has cases for `string`, `float64`, `int`, `bool` and `nil` only. -/
def scalarToString (fl : FloatOps) (v : Value) : Option Str :=
  match v with
  | .str val => some val
  | .float64 val =>
    if fl.isIntegral val then some (fl.format val 0) else some (fl.format val (-1))
  | .int val => some (Itoa val)
  | .bool val => some (FormatBool val)
  | .null => some []
  | _ => none

/-- The external packages `applyJQ` calls: `gojq.Parse`, `gojq.Compile`, the result
sequence of `code.Run(input)` as `iter.Next()` hands it out until it reports the end (an
entry `.error e` is a result value that is an `error`), `json.Marshal` as used by an encoder
with HTML escaping off (it can reject a value), and the `float64` operations. -/
structure Externals (ε Q C : Type) where
  parse : Str → Except ε Q
  compile : Q → Except ε C
  run : C → Value → List (Except ε Value)
  marshal : Value → Except ε Str
  float : FloatOps

/-- The `for` loop of `applyJQ` over the results still to come; `w` is what the sink holds.
Returns the error of `applyJQ` (`none` for `nil`) and the sink. `fmt.Fprintln(w, text)`
appends `text` and a newline, `enc.Encode(v)` the marshalled value and a newline. -/
def drain {ε Q C : Type} (x : Externals ε Q C) (rawOutput : Bool) :
    List (Except ε Value) → Str → Option (GoError ε) × Str
  | [], w => (none, w)
  | .error err :: _, w => (some (.ext err), w)
  | .ok v :: rest, w =>
    match (if rawOutput then scalarToString x.float v else none) with
    | some text => drain x rawOutput rest (w ++ text ++ [10])
    | none =>
      match x.marshal v with
      | .error err => (some (.ext err), w)
      | .ok text => drain x rawOutput rest (w ++ text ++ [10])

/-- What `applyJQ` leaves: the returned error, the sink, and a ghost flag `evaluated` telling
whether `code.Run` was called. -/
structure JQResult (ε : Type) where
  err : Option (GoError ε)
  w : Str
  evaluated : Bool

/-- Go `applyJQ`; `w` is what the sink holds before the call. -/
def applyJQ {ε Q C : Type} (x : Externals ε Q C) (input : Value) (expr : Str) (w : Str)
    (rawOutput : Bool) : JQResult ε :=
  match x.parse expr with
  | .error err => ⟨some (.errorf (bytes "failed to parse jq expression: ") (.ext err)), w, false⟩
  | .ok query =>
    match x.compile query with
    | .error err =>
      ⟨some (.errorf (bytes "failed to compile jq expression: ") (.ext err)), w, false⟩
    | .ok code =>
      let r := drain x rawOutput (x.run code input) w
      ⟨r.1, r.2, true⟩

/-- The line one pass of the loop of `applyJQ` writes for the result value `v`: in raw mode
the text of a scalar and a newline, otherwise the marshalled value and a newline; the error
is that of the marshaller. -/
def rendering {ε Q C : Type} (x : Externals ε Q C) (rawOutput : Bool) (v : Value) :
    Except ε Str :=
  match (if rawOutput then scalarToString x.float v else none) with
  | some text => .ok (text ++ [10])
  | none =>
    match x.marshal v with
    | .error err => .error err
    | .ok text => .ok (text ++ [10])

/-- Go `strconv.ParseBool`, which sets a boolean flag given as `-name=value`. -/
def ParseBool (s : Str) : Option Bool :=
  if s ∈ [bytes "1", bytes "t", bytes "T", bytes "TRUE", bytes "true", bytes "True"] then
    some true
  else if s ∈ [bytes "0", bytes "f", bytes "F", bytes "FALSE", bytes "false", bytes "False"]
  then some false
  else none

/-- The search for `=` in a flag name, from its second byte on: the name before it and the
value after it. -/
def splitFlagValue (name : Str) : Str × Option Str :=
  match name with
  | [] => ([], none)
  | c :: rest =>
    let pre := rest.takeWhile (fun b => b ≠ 61)
    if pre.length < rest.length then (c :: pre, some (rest.drop (pre.length + 1)))
    else (name, none)

/-- Go `FlagSet.Parse` (package `flag`, `ContinueOnError`) for the flag set of `Run`, whose
only flag is the boolean `version`: the value of `version` and the remaining arguments, or
the error. `version` is the value of the flag so far. -/
def flagParse (version : Bool) : List Str → Except FlagError (Bool × List Str)
  | [] => .ok (version, [])
  | s :: args =>
    match s with
    | c0 :: c1 :: tail =>
      if c0 ≠ 45 then .ok (version, s :: args)
      else if c1 = 45 ∧ tail = [] then .ok (version, args)
      else
        let name := if c1 = 45 then tail else c1 :: tail
        match name with
        | [] => .error (.badSyntax s)
        | n0 :: _ =>
          if n0 = 45 ∨ n0 = 61 then .error (.badSyntax s)
          else
            match splitFlagValue name with
            | (name, value) =>
              if name = bytes "version" then
                match value with
                | some v =>
                  match ParseBool v with
                  | some b => flagParse b args
                  | none => .error (.invalidBool v name)
                | none => flagParse true args
              else if name = bytes "help" ∨ name = bytes "h" then .error .help
              else .error (.notDefined name)
    | _ => .ok (version, s :: args)

/-- What `Run` takes from outside the package: the YAML decoder, `json.Marshal` (encoder
with HTML escaping off), `os.ReadFile`, `os.Stat` followed by
`ModTime().Format(time.RFC3339)`, `filepath.Base`, `io.ReadAll(os.Stdin)`, the lines a
`bufio.Scanner` on standard input yields with its final `Err()`, `strings.TrimSpace`, the
constants `version` and `revision` (declared in a file that is not among the sources), and
the text the flag package prints when parsing fails. -/
structure World (ε : Type) where
  decode : Str → Except ε Props
  marshal : Value → Except ε Str
  readFile : Str → Except ε Str
  modTime : Str → Except ε Str
  base : Str → Str
  readStdin : Except ε Str
  scanStdin : List Str × Option ε
  trimSpace : Str → Str
  version : Str
  revision : Str
  flagReport : FlagError → Str

/-- What a run leaves: the returned error (`none` for `nil`) and what the two streams hold. -/
structure RunResult (ε : Type) where
  err : Option (GoError ε)
  out : Str
  errOut : Str

/-- The record as the value handed to the JSON encoder. -/
def recordValue (r : GoMap) : Value := .map (r.entries.map (fun e => (e.1, e.2)))

/-- Go `writeJSON`: `enc.Encode(v)` appends the marshalled value and a newline. -/
def writeJSON {ε : Type} (marshal : Value → Except ε Str) (w : Str) (v : Value) :
    Option (GoError ε) × Str :=
  match marshal v with
  | .error err => (some (.ext err), w)
  | .ok text => (none, w ++ text ++ [10])

/-- Go `strings.TrimSuffix`. -/
def TrimSuffix (s suf : Str) : Str :=
  if HasSuffix s suf then s.take (s.length - suf.length) else s

/-- Go `printVersion`. -/
def printVersion {ε : Type} (world : World ε) (out : Str) : Str :=
  out ++ bytes "fmd2json" ++ bytes " v" ++ world.version ++ bytes " (rev:" ++ world.revision
    ++ bytes ")\n"

/-- Go `processStdin`; `none` is a run-time panic. -/
def processStdin {ε : Type} (world : World ε) (outStream errStream : Str) :
    Option (RunResult ε) :=
  match world.readStdin with
  | .error err => some ⟨some (.errorf (bytes "reading stdin: ") (.ext err)), outStream, errStream⟩
  | .ok data => do
    let r ← parseFrontmatter world.decode data
    let errStream := warnConflicts r.props errStream
    let result := (buildResult r.props [] r.body none).result
    let written := writeJSON world.marshal outStream (recordValue result)
    some ⟨written.1, written.2, errStream⟩

/-- Go `processFile`; `none` is a run-time panic. -/
def processFile {ε : Type} (world : World ε) (path : Str) (outStream errStream : Str) :
    Option (RunResult ε) :=
  match world.readFile path with
  | .error err =>
    some ⟨some (.errorf (bytes "reading file " ++ path ++ bytes ": ") (.ext err)),
      outStream, errStream⟩
  | .ok data =>
    match world.modTime path with
    | .error err =>
      some ⟨some (.errorf (bytes "stat file " ++ path ++ bytes ": ") (.ext err)),
        outStream, errStream⟩
    | .ok mtime => do
      let r ← parseFrontmatter world.decode data
      let errStream := warnConflicts r.props errStream
      let filename := TrimSuffix (world.base path) (bytes ".md")
      let result := (buildResult r.props filename r.body (some mtime)).result
      let written := writeJSON world.marshal outStream (recordValue result)
      some ⟨written.1, written.2, errStream⟩

/-- Go `processArg`. -/
def processArg {ε : Type} (world : World ε) (arg : Str) (outStream errStream : Str) :
    Option (RunResult ε) :=
  if arg = bytes "-" then processStdin world outStream errStream
  else processFile world arg outStream errStream

/-- The loop of `Run` over the arguments: it stops at the first error. -/
def processArgs {ε : Type} (world : World ε) : List Str → Str → Str → Option (RunResult ε)
  | [], out, err => some ⟨none, out, err⟩
  | arg :: rest, out, err =>
    match processArg world arg out err with
    | none => none
    | some r =>
      match r.err with
      | some _ => some r
      | none => processArgs world rest r.out r.errOut

/-- The loop of `Run` over the lines of standard input: blank lines are skipped, it stops
at the first error, and the scanner's error is reported after the last line. -/
def processLines {ε : Type} (world : World ε) (scanErr : Option ε) :
    List Str → Str → Str → Option (RunResult ε)
  | [], out, err =>
    match scanErr with
    | some e => some ⟨some (.errorf (bytes "reading stdin: ") (.ext e)), out, err⟩
    | none => some ⟨none, out, err⟩
  | text :: rest, out, err =>
    let line := world.trimSpace text
    if line = [] then processLines world scanErr rest out err
    else
      match processFile world line out err with
      | none => none
      | some r =>
        match r.err with
        | some _ => some r
        | none => processLines world scanErr rest r.out r.errOut

/-- Go `Run`; `outStream` and `errStream` are what the two streams hold before the call,
`none` is a run-time panic. The flag set defines the single flag `version`. -/
def Run {ε : Type} (world : World ε) (argv : List Str) (outStream errStream : Str) :
    Option (RunResult ε) :=
  match flagParse false argv with
  | .error err => some ⟨some (.flag err), outStream, errStream ++ world.flagReport err⟩
  | .ok (ver, args) =>
    if ver then some ⟨none, printVersion world outStream, errStream⟩
    else if args.length > 0 then processArgs world args outStream errStream
    else processLines world world.scanStdin.2 world.scanStdin.1 outStream errStream

/-! ## Sample collaborators for concrete runs -/

/-- The member `k` of a mapping, `null` when there is none. -/
def sampleField (k : Str) (v : Value) : Value :=
  match v with
  | .map entries => (entries.lookup k).getD .null
  | _ => .null

/-- A toy marshaller: scalars, the empty sequence and the empty mapping; it rejects every
other value, as `json.Marshal` rejects some. -/
def sampleMarshal (v : Value) : Except Unit Str :=
  match v with
  | .null => .ok (bytes "null")
  | .bool b => .ok (FormatBool b)
  | .int i => .ok (Itoa i)
  | .uint n => .ok (Itoa n)
  | .str s => .ok (quote s)
  | .seq [] => .ok (bytes "[]")
  | .map [] => .ok (bytes "\x7b\x7d")
  | _ => .error ()

/-- A toy query engine: `.foo[` does not parse, `..bad` parses but does not compile,
`.a, .b` and `.a, error, .b` are the sequences they look like, the text `[]` followed by a
comma and an empty pair of braces gives the empty sequence and the empty mapping, and any
other text `.name` selects the member `name`. -/
def sampleExternals : Externals Unit Str Str where
  parse := fun e => if e = bytes ".foo[" then .error () else .ok e
  compile := fun q => if q = bytes "..bad" then .error () else .ok q
  run := fun c input =>
    if c = bytes ".a, .b" then
      [.ok (sampleField (bytes "a") input), .ok (sampleField (bytes "b") input)]
    else if c = bytes ".a, error, .b" then
      [.ok (sampleField (bytes "a") input), .error (), .ok (sampleField (bytes "b") input)]
    else if c = bytes "[], \x7b\x7d" then [.ok (.seq []), .ok (.map [])]
    else [.ok (sampleField (c.drop 1) input)]
  marshal := sampleMarshal
  float := ⟨fun _ => true, fun _ _ => []⟩

/-- The bit pattern of the `float64` that `math.NaN()` returns. -/
def nanBits : Nat := 0x7FF8000000000001

/-- Whether a `float64` bit pattern is a NaN or an infinity: all eleven exponent bits set. -/
def isNaNOrInf (bits : Nat) : Bool := (bits / 2 ^ 52) % 2048 == 2047

/-- A toy collaborator set for values without JSON encoding: the query `nan` yields the
`float64` NaN and `nan, error` yields NaN and then an error value; the marshaller rejects
NaN and the infinities, as `json.Marshal` does (`UnsupportedValueError`), and is the toy
marshaller on every other value. -/
def nanExternals : Externals Str Str Str where
  parse := fun e => .ok e
  compile := fun q => .ok q
  run := fun c _ =>
    if c = bytes "nan" then [.ok (.float64 nanBits)]
    else if c = bytes "nan, error" then [.ok (.float64 nanBits), .error (bytes "boom")]
    else []
  marshal := fun v =>
    match v with
    | .float64 bits =>
      if isNaNOrInf bits then .error (bytes "json: unsupported value") else .ok (bytes "0")
    | other =>
      match sampleMarshal other with
      | .ok text => .ok text
      | .error _ => .error (bytes "json: unsupported type")
  float := ⟨fun _ => false, fun _ _ => bytes "NaN"⟩

/-! ## Facts about the string primitives -/

theorem bytes_open_lf : bytes "---\n" = [45, 45, 45, 10] := by decide

theorem bytes_open_crlf : bytes "---\r\n" = [45, 45, 45, 13, 10] := by decide

theorem bytes_close_lf : bytes "\n---\n" = [10, 45, 45, 45, 10] := by decide

theorem bytes_close_crlf : bytes "\r\n---\r\n" = [13, 10, 45, 45, 45, 13, 10] := by decide

theorem bytes_tail_lf : bytes "\n---" = [10, 45, 45, 45] := by decide

theorem bytes_tail_crlf : bytes "\r\n---" = [13, 10, 45, 45, 45] := by decide

theorem HasPrefix_iff (s pre : Str) : HasPrefix s pre = true ↔ pre <+: s := by
  unfold HasPrefix
  rw [List.prefix_iff_eq_take]
  constructor
  · intro h
    simp only [Bool.and_eq_true, decide_eq_true_eq, beq_iff_eq] at h
    exact h.2.symm
  · intro h
    have hlen : pre.length ≤ s.length := by
      have := congrArg List.length h
      rw [List.length_take] at this
      omega
    simp only [Bool.and_eq_true, decide_eq_true_eq, beq_iff_eq]
    exact ⟨hlen, h.symm⟩

theorem HasSuffix_iff (s suf : Str) : HasSuffix s suf = true ↔ suf <:+ s := by
  unfold HasSuffix
  rw [List.suffix_iff_eq_drop]
  constructor
  · intro h
    simp only [Bool.and_eq_true, decide_eq_true_eq, beq_iff_eq] at h
    exact h.2.symm
  · intro h
    have hlen : suf.length ≤ s.length := by
      have := congrArg List.length h
      rw [List.length_drop] at this
      omega
    simp only [Bool.and_eq_true, decide_eq_true_eq, beq_iff_eq]
    exact ⟨hlen, h.symm⟩

theorem occursAt_zero (s substr : Str) : occursAt s substr 0 ↔ substr <+: s := by
  simp [occursAt]

theorem occursAt_succ (c : Byte) (s substr : Str) (j : Nat) :
    occursAt (c :: s) substr (j + 1) ↔ occursAt s substr j := by
  simp [occursAt]

theorem contained_of_occursAt {s substr : Str} {j : Nat} (h : occursAt s substr j) :
    substr <:+: s :=
  List.IsInfix.trans h.isInfix (List.drop_suffix j s).isInfix

theorem occursAt_of_contained {s substr : Str} (h : substr <:+: s) : ∃ j, occursAt s substr j := by
  obtain ⟨a, b, hab⟩ := h
  refine ⟨a.length, ?_⟩
  unfold occursAt
  rw [← hab, List.append_assoc, List.drop_left]
  exact List.prefix_append _ _

/-- An occurrence at `j` in the part of `s` after a prefix `a` is an occurrence at
`a.length + j` in `a ++ s`. -/
theorem occursAt_append_left (a s substr : Str) (j : Nat) :
    occursAt (a ++ s) substr (a.length + j) ↔ occursAt s substr j := by
  unfold occursAt
  rw [← List.drop_drop, List.drop_left]

/-- Characterisation of the search loop: either nothing is found and `substr` occurs
nowhere, or the result is the offset of the first occurrence. -/
theorem indexFrom_spec (substr : Str) (s : Str) (i : Nat) :
    (indexFrom substr s i = -1 ∧ ∀ j, ¬ occursAt s substr j) ∨
    (∃ n, n ≤ s.length ∧ indexFrom substr s i = ((i + n : Nat) : Int) ∧
      occursAt s substr n ∧ ∀ j, j < n → ¬ occursAt s substr j) := by
  induction s generalizing i with
  | nil =>
    by_cases h : HasPrefix [] substr = true
    · right
      refine ⟨0, le_refl _, ?_, ?_, ?_⟩
      · simp [indexFrom, h]
      · exact (occursAt_zero _ _).2 ((HasPrefix_iff _ _).1 h)
      · intro j hj; omega
    · left
      refine ⟨?_, ?_⟩
      · simp [indexFrom, h]
      · intro j hj
        apply h
        rw [HasPrefix_iff]
        simpa [occursAt] using hj
  | cons c s ih =>
    by_cases h : HasPrefix (c :: s) substr = true
    · right
      refine ⟨0, Nat.zero_le _, ?_, ?_, ?_⟩
      · simp [indexFrom, h]
      · exact (occursAt_zero _ _).2 ((HasPrefix_iff _ _).1 h)
      · intro j hj; omega
    · have hstep : indexFrom substr (c :: s) i = indexFrom substr s (i + 1) := by
        simp [indexFrom, h]
      rcases ih (i + 1) with ⟨hneg, hnone⟩ | ⟨n, hn, hval, hocc, hmin⟩
      · left
        refine ⟨by rw [hstep, hneg], ?_⟩
        intro j hj
        cases j with
        | zero => exact h ((HasPrefix_iff _ _).2 ((occursAt_zero _ _).1 hj))
        | succ j => exact hnone j ((occursAt_succ _ _ _ _).1 hj)
      · right
        refine ⟨n + 1, by simpa using hn, ?_, (occursAt_succ _ _ _ _).2 hocc, ?_⟩
        · rw [hstep, hval]; congr 1; omega
        · intro j hj hj2
          cases j with
          | zero => exact h ((HasPrefix_iff _ _).2 ((occursAt_zero _ _).1 hj2))
          | succ j => exact hmin j (by omega) ((occursAt_succ _ _ _ _).1 hj2)

/-- Characterisation of `strings.Index`. -/
theorem Index_spec (s substr : Str) :
    (Index s substr = -1 ∧ ∀ j, ¬ occursAt s substr j) ∨
    (∃ n, n ≤ s.length ∧ Index s substr = (n : Int) ∧
      occursAt s substr n ∧ ∀ j, j < n → ¬ occursAt s substr j) := by
  unfold Index
  rcases indexFrom_spec substr s 0 with h | ⟨n, hn, hval, hocc, hmin⟩
  · exact Or.inl h
  · exact Or.inr ⟨n, hn, by simpa using hval, hocc, hmin⟩

/-- The first occurrence is what `strings.Index` returns. -/
theorem Index_eq_of_first {s substr : Str} {n : Nat} (hocc : occursAt s substr n)
    (hmin : ∀ j, j < n → ¬ occursAt s substr j) : Index s substr = (n : Int) := by
  rcases Index_spec s substr with ⟨_, hnone⟩ | ⟨k, _, hval, hk, hkmin⟩
  · exact absurd hocc (hnone n)
  · rcases Nat.lt_trichotomy k n with hlt | heq | hgt
    · exact absurd hk (hmin k hlt)
    · rw [hval, heq]
    · exact absurd hocc (hkmin n hgt)

/-- With no occurrence below `n`, `strings.Index` fails or returns at least `n`. -/
theorem Index_ge_of_none_below {s substr : Str} {n : Nat}
    (hmin : ∀ j, j < n → ¬ occursAt s substr j) :
    Index s substr = -1 ∨ (n : Int) ≤ Index s substr := by
  rcases Index_spec s substr with ⟨hneg, _⟩ | ⟨k, _, hval, hk, _⟩
  · exact Or.inl hneg
  · right
    rw [hval]
    have : n ≤ k := by
      by_contra hlt
      exact hmin k (by omega) hk
    exact_mod_cast this

/-- A text that does not contain `substr` makes `strings.Index` return `-1`. -/
theorem Index_eq_neg_one_of_absent {s substr : Str} (h : ¬ substr <:+: s) :
    Index s substr = -1 := by
  rcases Index_spec s substr with ⟨hneg, _⟩ | ⟨k, _, _, hk, _⟩
  · exact hneg
  · exact absurd (contained_of_occursAt hk) h

theorem sliceFrom_append (a b : Str) : sliceFrom (a ++ b) (a.length : Int) = some b := by
  unfold sliceFrom
  have : (a.length : Int) ≤ ((a ++ b).length : Int) := by
    rw [List.length_append]; omega
  simp [this]

theorem sliceTo_append (a b : Str) : sliceTo (a ++ b) (a.length : Int) = some a := by
  unfold sliceTo
  have : (a.length : Int) ≤ ((a ++ b).length : Int) := by
    rw [List.length_append]; omega
  simp [this]

/-! ## The splitter on a delimited header -/

theorem closeLF_length : closeLF.length = 5 := by decide

theorem closeCRLF_length : closeCRLF.length = 7 := by decide

/-- The four-byte slice `content[4:]` after any four-byte opening `p`. -/
theorem sliceFrom_four (p rest : Str) (hp : p.length = 4) :
    sliceFrom (p ++ rest) 4 = some rest := by
  have h := sliceFrom_append p rest
  rw [hp] at h
  exact_mod_cast h

/-- Interior closing boundary, newline-only variant first: the split is made there. -/
theorem parseFrontmatter_interior_lf {ε : Type} (decode : Str → Except ε Props)
    (p m b : Str) (hp : p.length = 4)
    (hopen : HasPrefix (p ++ (m ++ closeLF ++ b)) (bytes "---\n") = true ∨
      HasPrefix (p ++ (m ++ closeLF ++ b)) (bytes "---\r\n") = true)
    (hfirst : ∀ j, j < m.length →
      ¬ occursAt (m ++ closeLF ++ b) closeLF j ∧ ¬ occursAt (m ++ closeLF ++ b) closeCRLF j) :
    parseFrontmatter decode (p ++ (m ++ closeLF ++ b))
      = some ⟨parseYAML decode m, b, [m]⟩ := by
  have hocc : occursAt (m ++ closeLF ++ b) closeLF m.length := by
    have := (occursAt_append_left m (closeLF ++ b) closeLF 0).2
      ((occursAt_zero _ _).2 (List.prefix_append _ _))
    simpa [List.append_assoc] using this
  have hidx : Index (m ++ closeLF ++ b) (bytes "\n---\n") = (m.length : Int) :=
    Index_eq_of_first hocc (fun j hj => (hfirst j hj).1)
  have hidxR : Index (m ++ closeLF ++ b) (bytes "\r\n---\r\n") = -1 ∨
      (m.length : Int) ≤ Index (m ++ closeLF ++ b) (bytes "\r\n---\r\n") :=
    Index_ge_of_none_below (fun j hj => (hfirst j hj).2)
  have hguard : (!HasPrefix (p ++ (m ++ closeLF ++ b)) (bytes "---\n") &&
      !HasPrefix (p ++ (m ++ closeLF ++ b)) (bytes "---\r\n")) = false := by
    rcases hopen with h | h <;> simp only [h, Bool.not_true, Bool.and_false, Bool.false_and]
  have hto : sliceTo (m ++ closeLF ++ b) (m.length : Int) = some m := by
    rw [List.append_assoc]; exact sliceTo_append m _
  have hfrom : sliceFrom (m ++ closeLF ++ b) ((m.length : Int) + 5) = some b := by
    have h := sliceFrom_append (m ++ closeLF) b
    rw [List.length_append, closeLF_length] at h
    exact_mod_cast h
  have hnot : ¬ (Index (m ++ closeLF ++ b) (bytes "\n---\n") < 0 ∧
      Index (m ++ closeLF ++ b) (bytes "\r\n---\r\n") < 0) := by
    rw [hidx]; omega
  have hsel : 0 ≤ Index (m ++ closeLF ++ b) (bytes "\n---\n") ∧
      (Index (m ++ closeLF ++ b) (bytes "\r\n---\r\n") < 0 ∨
        Index (m ++ closeLF ++ b) (bytes "\n---\n")
          ≤ Index (m ++ closeLF ++ b) (bytes "\r\n---\r\n")) := by
    rw [hidx]
    rcases hidxR with h | h
    · rw [h]; omega
    · omega
  unfold parseFrontmatter
  simp only [hguard, sliceFrom_four p _ hp, Option.bind_eq_bind, Option.some_bind]
  rw [if_neg hnot, if_pos hsel, hidx, hto, hfrom]
  rfl

theorem closeLF_not_prefix_closeCRLF (b : Str) : ¬ closeLF <+: closeCRLF ++ b := by
  intro h
  rw [closeLF, closeCRLF, bytes_close_lf, bytes_close_crlf, List.cons_append,
    List.cons_prefix_cons] at h
  exact absurd h.1 (by decide)

/-- Interior closing boundary, carriage-return variant first: the split is made there. -/
theorem parseFrontmatter_interior_crlf {ε : Type} (decode : Str → Except ε Props)
    (p m b : Str) (hp : p.length = 4)
    (hopen : HasPrefix (p ++ (m ++ closeCRLF ++ b)) (bytes "---\n") = true ∨
      HasPrefix (p ++ (m ++ closeCRLF ++ b)) (bytes "---\r\n") = true)
    (hfirst : ∀ j, j < m.length →
      ¬ occursAt (m ++ closeCRLF ++ b) closeLF j ∧
        ¬ occursAt (m ++ closeCRLF ++ b) closeCRLF j) :
    parseFrontmatter decode (p ++ (m ++ closeCRLF ++ b))
      = some ⟨parseYAML decode m, b, [m]⟩ := by
  have hocc : occursAt (m ++ closeCRLF ++ b) closeCRLF m.length := by
    have := (occursAt_append_left m (closeCRLF ++ b) closeCRLF 0).2
      ((occursAt_zero _ _).2 (List.prefix_append _ _))
    simpa [List.append_assoc] using this
  have hnolf : ¬ occursAt (m ++ closeCRLF ++ b) closeLF m.length := by
    intro h
    have h2 : occursAt (m ++ (closeCRLF ++ b)) closeLF (m.length + 0) := by
      simpa [List.append_assoc] using h
    exact closeLF_not_prefix_closeCRLF b
      ((occursAt_zero _ _).1 ((occursAt_append_left m _ closeLF 0).1 h2))
  have hidxR : Index (m ++ closeCRLF ++ b) (bytes "\r\n---\r\n") = (m.length : Int) :=
    Index_eq_of_first hocc (fun j hj => (hfirst j hj).2)
  have hidx : Index (m ++ closeCRLF ++ b) (bytes "\n---\n") = -1 ∨
      ((m.length + 1 : Nat) : Int) ≤ Index (m ++ closeCRLF ++ b) (bytes "\n---\n") := by
    apply Index_ge_of_none_below
    intro j hj
    rcases Nat.lt_succ_iff_lt_or_eq.1 hj with h | h
    · exact (hfirst j h).1
    · rw [h]; exact hnolf
  have hguard : (!HasPrefix (p ++ (m ++ closeCRLF ++ b)) (bytes "---\n") &&
      !HasPrefix (p ++ (m ++ closeCRLF ++ b)) (bytes "---\r\n")) = false := by
    rcases hopen with h | h <;> simp only [h, Bool.not_true, Bool.and_false, Bool.false_and]
  have hto : sliceTo (m ++ closeCRLF ++ b) (m.length : Int) = some m := by
    rw [List.append_assoc]; exact sliceTo_append m _
  have hfrom : sliceFrom (m ++ closeCRLF ++ b) ((m.length : Int) + 7) = some b := by
    have h := sliceFrom_append (m ++ closeCRLF) b
    rw [List.length_append, closeCRLF_length] at h
    exact_mod_cast h
  have hnot : ¬ (Index (m ++ closeCRLF ++ b) (bytes "\n---\n") < 0 ∧
      Index (m ++ closeCRLF ++ b) (bytes "\r\n---\r\n") < 0) := by
    rw [hidxR]; omega
  have hsel : ¬ (0 ≤ Index (m ++ closeCRLF ++ b) (bytes "\n---\n") ∧
      (Index (m ++ closeCRLF ++ b) (bytes "\r\n---\r\n") < 0 ∨
        Index (m ++ closeCRLF ++ b) (bytes "\n---\n")
          ≤ Index (m ++ closeCRLF ++ b) (bytes "\r\n---\r\n"))) := by
    rw [hidxR]
    rcases hidx with h | h
    · rw [h]; omega
    · push_cast at h; omega
  unfold parseFrontmatter
  simp only [hguard, sliceFrom_four p _ hp, Option.bind_eq_bind, Option.some_bind]
  rw [if_neg hnot, if_neg hsel, hidxR, hto, hfrom]
  rfl

theorem HasPrefix_open_lf (r : Str) : HasPrefix (bytes "---\n" ++ r) (bytes "---\n") = true :=
  (HasPrefix_iff _ _).2 (List.prefix_append _ _)

theorem tailLF_length : tailLF.length = 4 := by decide

/-- No opening boundary: the whole content is the body and the decoder is not called. -/
theorem parseFrontmatter_not_open {ε : Type} (decode : Str → Except ε Props) (content : Str)
    (h1 : HasPrefix content (bytes "---\n") = false)
    (h2 : HasPrefix content (bytes "---\r\n") = false) :
    parseFrontmatter decode content = some ⟨none, content, []⟩ := by
  unfold parseFrontmatter
  simp only [h1, h2, Bool.not_false, Bool.and_self, if_true]

/-- No interior closing boundary, but the rest ends in `"\n---"`: everything before these
four bytes is decoded and the body is empty. -/
theorem parseFrontmatter_trailing {ε : Type} (decode : Str → Except ε Props)
    (p m : Str) (hp : p.length = 4)
    (hopen : HasPrefix (p ++ (m ++ tailLF)) (bytes "---\n") = true ∨
      HasPrefix (p ++ (m ++ tailLF)) (bytes "---\r\n") = true)
    (hlf : ¬ closeLF <:+: m ++ tailLF) (hcrlf : ¬ closeCRLF <:+: m ++ tailLF) :
    parseFrontmatter decode (p ++ (m ++ tailLF)) = some ⟨parseYAML decode m, [], [m]⟩ := by
  have hidx : Index (m ++ tailLF) (bytes "\n---\n") = -1 := Index_eq_neg_one_of_absent hlf
  have hidxR : Index (m ++ tailLF) (bytes "\r\n---\r\n") = -1 :=
    Index_eq_neg_one_of_absent hcrlf
  have hguard : (!HasPrefix (p ++ (m ++ tailLF)) (bytes "---\n") &&
      !HasPrefix (p ++ (m ++ tailLF)) (bytes "---\r\n")) = false := by
    rcases hopen with h | h <;> simp only [h, Bool.not_true, Bool.and_false, Bool.false_and]
  have hsuf : HasSuffix (m ++ tailLF) (bytes "\n---") = true :=
    (HasSuffix_iff _ _).2 (List.suffix_append _ _)
  have hlen : ((m ++ tailLF).length : Int) - 4 = (m.length : Int) := by
    rw [List.length_append, tailLF_length]; push_cast; omega
  have hto : sliceTo (m ++ tailLF) (m.length : Int) = some m := sliceTo_append m _
  have hnn : ¬ ((m.length : Int) < 0) := by omega
  unfold parseFrontmatter
  simp only [hguard, sliceFrom_four p _ hp, Option.bind_eq_bind, Option.some_bind, hidx, hidxR,
    hsuf, hlen, hto, if_true, if_neg hnn]
  simp

/-- Neither closing boundary anywhere in the rest and no `"\n---"` at its end: no header,
the whole content is the body and the decoder is not called. -/
theorem parseFrontmatter_unclosed {ε : Type} (decode : Str → Except ε Props)
    (p rest : Str) (hp : p.length = 4)
    (hopen : HasPrefix (p ++ rest) (bytes "---\n") = true ∨
      HasPrefix (p ++ rest) (bytes "---\r\n") = true)
    (hlf : ¬ closeLF <:+: rest) (hcrlf : ¬ closeCRLF <:+: rest)
    (hend : ¬ tailLF <:+ rest) :
    parseFrontmatter decode (p ++ rest) = some ⟨none, p ++ rest, []⟩ := by
  have hidx : Index rest (bytes "\n---\n") = -1 := Index_eq_neg_one_of_absent hlf
  have hidxR : Index rest (bytes "\r\n---\r\n") = -1 := Index_eq_neg_one_of_absent hcrlf
  have hguard : (!HasPrefix (p ++ rest) (bytes "---\n") &&
      !HasPrefix (p ++ rest) (bytes "---\r\n")) = false := by
    rcases hopen with h | h <;> simp only [h, Bool.not_true, Bool.and_false, Bool.false_and]
  have hsuf : HasSuffix rest (bytes "\n---") = false := by
    rw [Bool.eq_false_iff]
    intro h
    exact hend ((HasSuffix_iff _ _).1 h)
  have hsufR : HasSuffix rest (bytes "\r\n---") = false := by
    rw [Bool.eq_false_iff]
    intro h
    apply hend
    have h2 : bytes "\r\n---" <:+ rest := (HasSuffix_iff _ _).1 h
    have h3 : tailLF <:+ bytes "\r\n---" := by decide
    exact h3.trans h2
  unfold parseFrontmatter
  simp only [hguard, sliceFrom_four p _ hp, Option.bind_eq_bind, Option.some_bind, hidx, hidxR,
    hsuf, hsufR]
  simp

/-! ## Claims about `parseFrontmatter` -/

/-- C1: after an LF opening boundary, when the closing boundary `c` (either variant) at
offset `len m` is the first occurrence of either variant in `m ++ c ++ b`, the splitter
hands exactly `m` to the decoder (one call, props are `parseYAML m`) and returns exactly
`b` as body, whatever boundary-looking lines `b` contains. -/
theorem parseFrontmatter_interior_after_lf_open {ε : Type} (decode : Str → Except ε Props)
    (m c b : Str) (hc : c = closeLF ∨ c = closeCRLF)
    (hfirst : ∀ j, j < m.length →
      ¬ occursAt (m ++ c ++ b) closeLF j ∧ ¬ occursAt (m ++ c ++ b) closeCRLF j) :
    parseFrontmatter decode (bytes "---\n" ++ m ++ c ++ b)
      = some ⟨parseYAML decode m, b, [m]⟩ := by
  have hassoc : bytes "---\n" ++ m ++ c ++ b = bytes "---\n" ++ (m ++ c ++ b) := by
    simp only [List.append_assoc]
  rw [hassoc]
  rcases hc with h | h
  · subst h
    exact parseFrontmatter_interior_lf decode _ m b (by decide)
      (Or.inl (HasPrefix_open_lf _)) hfirst
  · subst h
    exact parseFrontmatter_interior_crlf decode _ m b (by decide)
      (Or.inl (HasPrefix_open_lf _)) hfirst

/-- C1 at the test document `"---\nprop1: aaa\n---\nbody body\n"`, whose body also holds
no further boundary: metadata text `prop1: aaa`, body `body body\n`. -/
theorem parseFrontmatter_interior_after_lf_open_witness :
    (bytes "---\n" ++ bytes "prop1: aaa" ++ closeLF ++ bytes "body body\n"
        = bytes "---\nprop1: aaa\n---\nbody body\n") ∧
    (∀ j, j < (bytes "prop1: aaa").length →
      ¬ occursAt (bytes "prop1: aaa" ++ closeLF ++ bytes "body body\n") closeLF j ∧
        ¬ occursAt (bytes "prop1: aaa" ++ closeLF ++ bytes "body body\n") closeCRLF j) ∧
    parseFrontmatter sampleDecode
        (bytes "---\n" ++ bytes "prop1: aaa" ++ closeLF ++ bytes "body body\n")
      = some ⟨parseYAML sampleDecode (bytes "prop1: aaa"), bytes "body body\n",
          [bytes "prop1: aaa"]⟩ :=
  ⟨by decide, by decide,
    parseFrontmatter_interior_after_lf_open sampleDecode (bytes "prop1: aaa") closeLF
      (bytes "body body\n") (Or.inl rfl) (by decide)⟩

/-- C2 (code defect, CRLF opening): `"---\r\n---\nbody"` begins with `---` and a CRLF
terminator, the remainder `"---\nbody"` after that terminator contains neither closing
boundary and the content does not end in `"\n---"`; the claim promises nil metadata and the
whole content as body. The code skips only four bytes, finds `"\n---\n"` at offset 0 of
`content[4:]`, calls the decoder on the empty text and returns the body `"body"`. The
same document with an LF opening is returned whole, as the claim says. -/
theorem parseFrontmatter_unclosed_crlf_open_splits {ε : Type}
    (decode : Str → Except ε Props) :
    (bytes "---\r\n" <+: bytes "---\r\n---\nbody" ∧
      ¬ closeLF <:+: (bytes "---\r\n---\nbody").drop 5 ∧
      ¬ closeCRLF <:+: (bytes "---\r\n---\nbody").drop 5 ∧
      ¬ tailLF <:+ bytes "---\r\n---\nbody") ∧
    parseFrontmatter decode (bytes "---\r\n---\nbody")
      = some ⟨parseYAML decode [], bytes "body", [[]]⟩ ∧
    bytes "body" ≠ bytes "---\r\n---\nbody" ∧
    parseFrontmatter decode (bytes "---\n---\nbody")
      = some ⟨none, bytes "---\n---\nbody", []⟩ := by
  refine ⟨by decide, ?_, by decide, ?_⟩
  · have e : bytes "---\r\n---\nbody" = bytes "---\r" ++ ([] ++ closeLF ++ bytes "body") := by
      decide
    rw [e]
    exact parseFrontmatter_interior_lf decode _ [] _ (by decide) (Or.inr (by decide))
      (fun j hj => absurd hj (Nat.not_lt_zero j))
  · have e : bytes "---\n---\nbody" = bytes "---\n" ++ bytes "---\nbody" := by decide
    rw [e]
    exact parseFrontmatter_unclosed decode _ _ (by decide) (Or.inl (by decide)) (by decide)
      (by decide) (by decide)

/-- C3: content that starts with neither `"---\n"` nor `"---\r\n"` gives nil metadata, no
decoder call, and the entire input as body. -/
theorem parseFrontmatter_no_leading_boundary {ε : Type} (decode : Str → Except ε Props)
    (content : Str) (h1 : ¬ bytes "---\n" <+: content) (h2 : ¬ bytes "---\r\n" <+: content) :
    parseFrontmatter decode content = some ⟨none, content, []⟩ := by
  apply parseFrontmatter_not_open
  · rw [Bool.eq_false_iff]; exact fun h => h1 ((HasPrefix_iff _ _).1 h)
  · rw [Bool.eq_false_iff]; exact fun h => h2 ((HasPrefix_iff _ _).1 h)

/-- C3 at the empty content, at the plain-markdown test document, at four dashes and at
`---` followed by another byte; `sampleDecode` never returns nil, so the nil metadata is
not a decoder result. -/
theorem parseFrontmatter_no_leading_boundary_witness :
    parseFrontmatter sampleDecode [] = some ⟨none, [], []⟩ ∧
    parseFrontmatter sampleDecode (bytes "no frontmatter here\njust plain markdown\n")
      = some ⟨none, bytes "no frontmatter here\njust plain markdown\n", []⟩ ∧
    parseFrontmatter sampleDecode (bytes "----\na: b\n---\n")
      = some ⟨none, bytes "----\na: b\n---\n", []⟩ ∧
    parseFrontmatter sampleDecode (bytes "--- \na: b\n---\n")
      = some ⟨none, bytes "--- \na: b\n---\n", []⟩ :=
  ⟨parseFrontmatter_no_leading_boundary sampleDecode [] (by decide) (by decide),
    parseFrontmatter_no_leading_boundary sampleDecode _ (by decide) (by decide),
    parseFrontmatter_no_leading_boundary sampleDecode _ (by decide) (by decide),
    parseFrontmatter_no_leading_boundary sampleDecode _ (by decide) (by decide)⟩

/-- C4: a header-only document `"---\n" ++ m ++ "\n---"` without trailing newline, where
`m` does not end in a carriage return and `m ++ "\n---"` contains neither closing boundary:
the decoder receives exactly `m` (one call) and the body is empty. -/
theorem parseFrontmatter_header_only {ε : Type} (decode : Str → Except ε Props) (m : Str)
    (_hcr : ¬ [(13 : Byte)] <:+ m)
    (hlf : ¬ closeLF <:+: m ++ bytes "\n---") (hcrlf : ¬ closeCRLF <:+: m ++ bytes "\n---") :
    parseFrontmatter decode (bytes "---\n" ++ m ++ bytes "\n---")
      = some ⟨parseYAML decode m, [], [m]⟩ := by
  have hassoc : bytes "---\n" ++ m ++ bytes "\n---" = bytes "---\n" ++ (m ++ tailLF) := by
    simp only [List.append_assoc, tailLF]
  rw [hassoc]
  exact parseFrontmatter_trailing decode _ m (by decide) (Or.inl (HasPrefix_open_lf _))
    hlf hcrlf

/-- C4 at the test document `"---\nkey: val\n---"`: metadata text `key: val`, body `""`. -/
theorem parseFrontmatter_header_only_witness :
    (bytes "---\n" ++ bytes "key: val" ++ bytes "\n---" = bytes "---\nkey: val\n---") ∧
    (¬ [(13 : Byte)] <:+ bytes "key: val" ∧
      ¬ closeLF <:+: bytes "key: val" ++ bytes "\n---" ∧
      ¬ closeCRLF <:+: bytes "key: val" ++ bytes "\n---") ∧
    parseFrontmatter sampleDecode (bytes "---\n" ++ bytes "key: val" ++ bytes "\n---")
      = some ⟨parseYAML sampleDecode (bytes "key: val"), [], [bytes "key: val"]⟩ :=
  ⟨by decide, by decide,
    parseFrontmatter_header_only sampleDecode (bytes "key: val") (by decide) (by decide)
      (by decide)⟩

/-- C9 (code defect, CRLF opening): after the five-byte opening `"---\r\n"` the code still
takes `content[4:]`, so the newline of the opening terminator stays in front of the
metadata. For `"---\r\nkey: val\r\n---\r\nbody"` (claim: `m = "key: val"`, CRLF closing
boundary at offset `len m` first, body `"body"`) the decoder receives `"\nkey: val"`, while
the LF-opened document hands over `"key: val"`. For `"---\r\n---\n---\nB"` (claim:
`m = "---"`, LF closing boundary, body `"B"`) the leftover newline completes a closing
boundary at offset 0: the decoder receives the empty text and the body is `"---\nB"`. -/
theorem parseFrontmatter_crlf_open_keeps_newline {ε : Type}
    (decode : Str → Except ε Props) :
    (bytes "---\r\n" ++ bytes "key: val" ++ closeCRLF ++ bytes "body"
        = bytes "---\r\nkey: val\r\n---\r\nbody" ∧
      ∀ j, j < (bytes "key: val").length →
        ¬ occursAt (bytes "key: val" ++ closeCRLF ++ bytes "body") closeLF j ∧
          ¬ occursAt (bytes "key: val" ++ closeCRLF ++ bytes "body") closeCRLF j) ∧
    parseFrontmatter decode (bytes "---\r\nkey: val\r\n---\r\nbody")
      = some ⟨parseYAML decode (bytes "\nkey: val"), bytes "body", [bytes "\nkey: val"]⟩ ∧
    bytes "\nkey: val" ≠ bytes "key: val" ∧
    parseFrontmatter decode (bytes "---\nkey: val\r\n---\r\nbody")
      = some ⟨parseYAML decode (bytes "key: val"), bytes "body", [bytes "key: val"]⟩ ∧
    (bytes "---\r\n" ++ bytes "---" ++ closeLF ++ bytes "B" = bytes "---\r\n---\n---\nB" ∧
      ∀ j, j < (bytes "---").length →
        ¬ occursAt (bytes "---" ++ closeLF ++ bytes "B") closeLF j ∧
          ¬ occursAt (bytes "---" ++ closeLF ++ bytes "B") closeCRLF j) ∧
    parseFrontmatter decode (bytes "---\r\n---\n---\nB")
      = some ⟨parseYAML decode [], bytes "---\nB", [[]]⟩ := by
  refine ⟨by decide, ?_, by decide, ?_, by decide, ?_⟩
  · have e : bytes "---\r\nkey: val\r\n---\r\nbody"
        = bytes "---\r" ++ (bytes "\nkey: val" ++ closeCRLF ++ bytes "body") := by decide
    rw [e]
    exact parseFrontmatter_interior_crlf decode _ _ _ (by decide) (Or.inr (by decide))
      (by decide)
  · have e : bytes "---\nkey: val\r\n---\r\nbody"
        = bytes "---\n" ++ (bytes "key: val" ++ closeCRLF ++ bytes "body") := by decide
    rw [e]
    exact parseFrontmatter_interior_crlf decode _ _ _ (by decide) (Or.inl (by decide))
      (by decide)
  · have e : bytes "---\r\n---\n---\nB"
        = bytes "---\r" ++ ([] ++ closeLF ++ bytes "---\nB") := by decide
    rw [e]
    exact parseFrontmatter_interior_lf decode _ [] _ (by decide) (Or.inr (by decide))
      (fun j hj => absurd hj (Nat.not_lt_zero j))

/-- C10 (code defect, unreachable branch): `"---\nkey: val\r\n---"` has the metadata
`m = "key: val"` followed by a trailing `"\r\n---"`, and `m ++ "\r\n---"` contains neither
closing boundary; the claim promises that the decoder receives `m`. Every text ending in
`"\r\n---"` also ends in `"\n---"`, which the code tests first, so it cuts four bytes, not
five: the decoder receives `"key: val\r"`, carriage return included. -/
theorem parseFrontmatter_trailing_crlf_keeps_cr {ε : Type} (decode : Str → Except ε Props) :
    (bytes "---\n" ++ bytes "key: val" ++ bytes "\r\n---" = bytes "---\nkey: val\r\n---" ∧
      ¬ closeLF <:+: bytes "key: val" ++ bytes "\r\n---" ∧
      ¬ closeCRLF <:+: bytes "key: val" ++ bytes "\r\n---") ∧
    parseFrontmatter decode (bytes "---\nkey: val\r\n---")
      = some ⟨parseYAML decode (bytes "key: val\r"), [], [bytes "key: val\r"]⟩ ∧
    bytes "key: val\r" ≠ bytes "key: val" ∧
    (∀ s : Str, HasSuffix s (bytes "\r\n---") = true → HasSuffix s (bytes "\n---") = true) := by
  refine ⟨by decide, ?_, by decide, ?_⟩
  · have e : bytes "---\nkey: val\r\n---" = bytes "---\n" ++ (bytes "key: val\r" ++ tailLF) := by
      decide
    rw [e]
    exact parseFrontmatter_trailing decode _ _ (by decide) (Or.inl (by decide)) (by decide)
      (by decide)
  · intro s h
    have h2 : bytes "\r\n---" <:+ s := (HasSuffix_iff _ _).1 h
    have h3 : bytes "\n---" <:+ bytes "\r\n---" := by decide
    exact (HasSuffix_iff _ _).2 (h3.trans h2)

/-! ## Facts about the record assembler -/

/-- The copy loop of `buildResult` never writes the caller's map. -/
theorem copy_loop_props (l : List (Sigma fun _ : Str => Value)) (st : BuildState) :
    (l.foldl (fun st e => { st with result := st.result.insert e.1 e.2 }) st).props
      = st.props := by
  induction l generalizing st with
  | nil => rfl
  | cons e t ih => rw [List.foldl_cons, ih]

/-- After the copy loop a key has the value of its entry in the visited list, or else the
value it had in `result` before. -/
theorem copy_loop_lookup (l : List (Sigma fun _ : Str => Value)) (hl : l.NodupKeys)
    (st : BuildState) (k : Str) :
    (l.foldl (fun st e => { st with result := st.result.insert e.1 e.2 }) st).result.lookup k
      = (l.dlookup k).orElse (fun _ => st.result.lookup k) := by
  induction l generalizing st with
  | nil => simp
  | cons e t ih =>
    obtain ⟨hnot, ht⟩ := List.nodupKeys_cons.1 hl
    rw [List.foldl_cons, ih ht]
    obtain ⟨a, v⟩ := e
    by_cases hk : k = a
    · subst hk
      have hnone : t.dlookup k = none := List.dlookup_eq_none.2 hnot
      simp [hnone, List.dlookup_cons_eq]
    · have h1 : List.dlookup k (⟨a, v⟩ :: t) = List.dlookup k t :=
        List.dlookup_cons_ne t ⟨a, v⟩ hk
      rw [h1, AList.lookup_insert_ne hk]

theorem rangeEntries_nodupKeys (props : Props) : (rangeEntries props).NodupKeys := by
  cases props with
  | none => exact List.nodupKeys_nil
  | some p => exact p.nodupKeys

theorem rangeEntries_dlookup (props : Props) (k : Str) :
    (rangeEntries props).dlookup k = getProp props k := by
  cases props <;> rfl

/-- After the copy loop started from the empty map, `result` has the entries of `props`. -/
theorem copy_loop_from_empty (props : Props) (k : Str) :
    ((rangeEntries props).foldl
        (fun st e => { st with result := st.result.insert e.1 e.2 })
        (⟨props, ∅⟩ : BuildState)).result.lookup k = getProp props k := by
  rw [copy_loop_lookup _ (rangeEntries_nodupKeys props), rangeEntries_dlookup]
  cases getProp props k <;> simp

theorem hasProp_iff_getProp (props : Props) (k : Str) :
    hasProp props k = true ↔ (getProp props k).isSome = true := by
  cases props with
  | none => simp [hasProp, getProp]
  | some p => simp [hasProp, getProp, AList.lookup_isSome]

/-- What `buildResult` stores under each key. -/
theorem buildResult_lookup (props : Props) (filename body : Str) (mtime : Option Str)
    (k : Str) :
    (buildResult props filename body mtime).result.lookup k =
      if k = bytes "mtime" ∧ mtime.isSome = true then mtime.map Value.str
      else if k = bytes "body" then some (Value.str body)
      else if k = bytes "filename" then some (Value.str filename)
      else getProp props k := by
  have hfb : bytes "filename" ≠ bytes "body" := by decide
  have hfm : bytes "filename" ≠ bytes "mtime" := by decide
  have hbm : bytes "body" ≠ bytes "mtime" := by decide
  cases mtime with
  | none =>
    simp only [buildResult, Option.isSome_none, Bool.false_eq_true, and_false, if_false]
    by_cases h2 : k = bytes "body"
    · subst h2
      simp only [if_true, AList.lookup_insert]
    · by_cases h1 : k = bytes "filename"
      · subst h1
        simp only [if_neg h2, if_true, AList.lookup_insert_ne h2, AList.lookup_insert]
      · simp only [if_neg h2, if_neg h1, AList.lookup_insert_ne h2, AList.lookup_insert_ne h1]
        exact copy_loop_from_empty props k
  | some t =>
    simp only [buildResult, Option.isSome_some, and_true, Option.map_some']
    by_cases h3 : k = bytes "mtime"
    · subst h3
      simp only [if_true, AList.lookup_insert]
    · by_cases h2 : k = bytes "body"
      · subst h2
        simp only [if_neg h3, if_true, AList.lookup_insert_ne h3, AList.lookup_insert]
      · by_cases h1 : k = bytes "filename"
        · subst h1
          simp only [if_neg h3, if_neg h2, if_true, AList.lookup_insert_ne h3,
            AList.lookup_insert_ne h2, AList.lookup_insert]
        · simp only [if_neg h3, if_neg h2, if_neg h1, AList.lookup_insert_ne h3,
            AList.lookup_insert_ne h2, AList.lookup_insert_ne h1]
          exact copy_loop_from_empty props k

/-- The caller's map is the same after `buildResult` as before. -/
theorem buildResult_props (props : Props) (filename body : Str) (mtime : Option Str) :
    (buildResult props filename body mtime).props = props := by
  cases mtime <;> simp only [buildResult] <;> exact copy_loop_props _ _

/-! ## Claims about the record assembler -/

/-- C5: whatever `props` holds (nil, empty, or entries named `filename`, `body`, `mtime`),
the record maps `filename` to the given filename and `body` to the given body, and when an
mtime is provided it maps `mtime` to that mtime; each key has this one value, so no
same-named metadata value survives. -/
theorem buildResult_computed_fields_win (props : Props) (filename body : Str)
    (mtime : Option Str) (t : Str) :
    (buildResult props filename body mtime).result.lookup (bytes "filename")
      = some (Value.str filename) ∧
    (buildResult props filename body mtime).result.lookup (bytes "body")
      = some (Value.str body) ∧
    (buildResult props filename body (some t)).result.lookup (bytes "mtime")
      = some (Value.str t) := by
  have hfb : bytes "filename" ≠ bytes "body" := by decide
  have hfm : bytes "filename" ≠ bytes "mtime" := by decide
  have hbm : bytes "body" ≠ bytes "mtime" := by decide
  refine ⟨?_, ?_, ?_⟩
  · rw [buildResult_lookup, if_neg (fun h => hfm h.1), if_neg hfb, if_pos rfl]
  · rw [buildResult_lookup, if_neg (fun h => hbm h.1), if_pos rfl]
  · rw [buildResult_lookup, if_pos ⟨rfl, rfl⟩]; rfl

/-- C6 (code defect, missing case): with no mtime provided, `buildResult` leaves whatever
`props` holds under `mtime` in the record; for metadata holding `mtime: "2020-01-01"` the
record keeps that value, although `warnConflicts` reports for the same metadata that the
default value is used. The claim promises a record without `mtime` entry. -/
theorem buildResult_nil_mtime_keeps_metadata (props : Props) (filename body : Str) :
    (buildResult props filename body none).result.lookup (bytes "mtime")
      = getProp props (bytes "mtime") ∧
    (buildResult (some (AList.singleton (bytes "mtime") (Value.str (bytes "2020-01-01"))))
        filename body none).result.lookup (bytes "mtime")
      = some (Value.str (bytes "2020-01-01")) ∧
    warnConflicts (some (AList.singleton (bytes "mtime") (Value.str (bytes "2020-01-01")))) []
      = bytes ("warning: frontmatter property \"mtime\" conflicts with default property, "
          ++ "using default value\n") := by
  have h : ∀ p : Props, (buildResult p filename body none).result.lookup (bytes "mtime")
      = getProp p (bytes "mtime") := by
    intro p
    rw [buildResult_lookup]
    simp only [Option.isSome_none, Bool.false_eq_true, and_false, if_false]
    rw [if_neg (by decide), if_neg (by decide)]
  refine ⟨h props, ?_, by decide⟩
  rw [h]
  rfl

/-- C7: for a key `k` other than `filename`, `body`, `mtime`, the record holds under `k`
exactly what `props` holds (the identical value, or nothing); every key of the record is a
key of `props` or a reserved name; and `props` is the same after the call. -/
theorem buildResult_preserves_other (props : Props) (filename body : Str)
    (mtime : Option Str) (k : Str) (hk : k ∉ defaultPropertyNames) :
    (buildResult props filename body mtime).result.lookup k = getProp props k ∧
    (k ∈ (buildResult props filename body mtime).result ↔ hasProp props k = true) ∧
    (∀ k', k' ∈ (buildResult props filename body mtime).result →
      hasProp props k' = true ∨ k' ∈ defaultPropertyNames) ∧
    (buildResult props filename body mtime).props = props := by
  have h1 : k ≠ bytes "filename" := fun h => hk (by simp [defaultPropertyNames, h])
  have h2 : k ≠ bytes "body" := fun h => hk (by simp [defaultPropertyNames, h])
  have h3 : k ≠ bytes "mtime" := fun h => hk (by simp [defaultPropertyNames, h])
  have hlook : (buildResult props filename body mtime).result.lookup k = getProp props k := by
    rw [buildResult_lookup, if_neg (fun h => h3 h.1), if_neg h2, if_neg h1]
  refine ⟨hlook, ?_, ?_, buildResult_props props filename body mtime⟩
  · rw [← AList.lookup_isSome, hlook, hasProp_iff_getProp]
  · intro k' hk'
    by_cases hres : k' ∈ defaultPropertyNames
    · exact Or.inr hres
    · left
      have e1 : k' ≠ bytes "filename" := fun h => hres (by simp [defaultPropertyNames, h])
      have e2 : k' ≠ bytes "body" := fun h => hres (by simp [defaultPropertyNames, h])
      have e3 : k' ≠ bytes "mtime" := fun h => hres (by simp [defaultPropertyNames, h])
      rw [← AList.lookup_isSome, buildResult_lookup, if_neg (fun h => e3 h.1), if_neg e2,
        if_neg e1] at hk'
      exact (hasProp_iff_getProp props k').2 hk'

/-- C7 at metadata with a number and a nested mapping, key `count`. -/
theorem buildResult_preserves_other_witness :
    bytes "count" ∉ defaultPropertyNames ∧
    ((buildResult
        (some ((AList.singleton (bytes "count") (Value.uint 42)).insert (bytes "nested")
          (Value.map [(bytes "a", Value.str (bytes "b"))])))
        (bytes "basic") (bytes "body\n") none).result.lookup (bytes "count")
      = getProp
          (some ((AList.singleton (bytes "count") (Value.uint 42)).insert (bytes "nested")
            (Value.map [(bytes "a", Value.str (bytes "b"))])))
          (bytes "count")) ∧
    getProp
        (some ((AList.singleton (bytes "count") (Value.uint 42)).insert (bytes "nested")
          (Value.map [(bytes "a", Value.str (bytes "b"))])))
        (bytes "count") = some (Value.uint 42) :=
  ⟨by decide,
    (buildResult_preserves_other _ (bytes "basic") (bytes "body\n") none (bytes "count")
      (by decide)).1,
    rfl⟩

/-- The written text has one newline per warning. -/
theorem lineCount_warnings (l : List Str) (hl : ∀ name ∈ l, name ∈ defaultPropertyNames) :
    lineCount ((l.map conflictWarning).flatten) = l.length := by
  have hone : ∀ name ∈ defaultPropertyNames, lineCount (conflictWarning name) = 1 := by
    decide
  induction l with
  | nil => rfl
  | cons a t ih =>
    have ha : lineCount (conflictWarning a) = 1 := hone a (hl a (List.mem_cons_self a t))
    have ht := ih (fun name hn => hl name (List.mem_cons_of_mem a hn))
    simp only [lineCount] at ha ht ⊢
    rw [List.map_cons, List.flatten_cons, List.count_append, ha, ht, List.length_cons]
    omega

/-- The sink after `warnConflicts`: the warnings of the reserved names present in `props`,
in the order of `defaultPropertyNames`, appended to what it held. -/
theorem warnConflicts_eq (props : Props) (errStream : Str) :
    warnConflicts props errStream
      = errStream ++
          ((defaultPropertyNames.filter (hasProp props)).map conflictWarning).flatten := by
  cases props with
  | none => simp [warnConflicts, hasProp]
  | some p =>
    simp only [warnConflicts, defaultPropertyNames, List.foldl_cons, List.foldl_nil, hasProp]
    by_cases h1 : bytes "filename" ∈ p <;> by_cases h2 : bytes "body" ∈ p <;>
      by_cases h3 : bytes "mtime" ∈ p <;> simp [h1, h2, h3, List.filter_cons, hasProp]

/-! ## Claim about `warnConflicts` -/

/-- C8: the sink after `warnConflicts` is the sink before followed by one warning line for
each of `filename`, `body`, `mtime` (in this fixed order) that is a key of `props`; the
number of lines written is the number of reserved names present; nothing is written for
absent metadata or metadata without reserved key; metadata with the same entries in another
order give the same output; and each line names its key between double quotes. -/
theorem warnConflicts_output (props : Props) (errStream : Str) :
    defaultPropertyNames = [bytes "filename", bytes "body", bytes "mtime"] ∧
    warnConflicts props errStream
      = errStream ++
          ((defaultPropertyNames.filter (hasProp props)).map conflictWarning).flatten ∧
    lineCount (((defaultPropertyNames.filter (hasProp props)).map conflictWarning).flatten)
      = (defaultPropertyNames.filter (hasProp props)).length ∧
    warnConflicts none errStream = errStream ∧
    ((∀ name ∈ defaultPropertyNames, hasProp props name = false) →
      warnConflicts props errStream = errStream) ∧
    (∀ p q : GoMap, p.entries.Perm q.entries →
      warnConflicts (some p) errStream = warnConflicts (some q) errStream) ∧
    (∀ name ∈ defaultPropertyNames,
      conflictWarning name = bytes "warning: frontmatter property " ++ ([34] ++ name ++ [34])
        ++ bytes " conflicts with default property, using default value\n") := by
  refine ⟨rfl, warnConflicts_eq props errStream, ?_, rfl, ?_, ?_, by decide⟩
  · exact lineCount_warnings _ (fun name hn => (List.mem_filter.1 hn).1)
  · intro hnone
    have hfil : defaultPropertyNames.filter (hasProp props) = [] := by
      rw [List.filter_eq_nil_iff]
      intro name hn
      rw [hnone name hn]
      exact Bool.false_ne_true
    rw [warnConflicts_eq, hfil]
    simp
  · intro p q hpq
    have hsame : hasProp (some p) = hasProp (some q) := by
      funext name
      simp only [hasProp, AList.mem_of_perm hpq]
    rw [warnConflicts_eq, warnConflicts_eq, hsame]

set_option maxRecDepth 8000 in
/-- C8 at the metadata of the test, with keys `filename`, `body`, `other` (entered in
another order): a line for `filename`, then a line for `body`, and no text `"other"`. -/
theorem warnConflicts_output_witness :
    warnConflicts
        (some (((AList.singleton (bytes "other") (Value.str (bytes "value"))).insert
          (bytes "body") (Value.str (bytes "custom body"))).insert
          (bytes "filename") (Value.str (bytes "custom")))) []
      = conflictWarning (bytes "filename") ++ conflictWarning (bytes "body") ∧
    ¬ bytes "\"other\"" <:+:
      conflictWarning (bytes "filename") ++ conflictWarning (bytes "body") := by
  refine ⟨?_, by decide⟩
  rw [(warnConflicts_output _ []).2.1]
  decide

/-! ## The splitter on every content -/

theorem sliceTo_of_le (s : Str) (n : Nat) (h : n ≤ s.length) :
    sliceTo s (n : Int) = some (s.take n) := by
  unfold sliceTo
  have h2 : (n : Int) ≤ (s.length : Int) := by exact_mod_cast h
  simp [h2]

theorem sliceFrom_of_le (s : Str) (n : Nat) (h : n ≤ s.length) :
    sliceFrom s (n : Int) = some (s.drop n) := by
  unfold sliceFrom
  have h2 : (n : Int) ≤ (s.length : Int) := by exact_mod_cast h
  simp [h2]

/-- An occurrence inside the text splits it into what is before, the occurrence, and what
is after. -/
theorem occursAt_split {s substr : Str} {n : Nat} (hn : n ≤ s.length)
    (h : occursAt s substr n) :
    n + substr.length ≤ s.length ∧ s = s.take n ++ substr ++ s.drop (n + substr.length) := by
  obtain ⟨t, ht⟩ := h
  have hlen : (s.drop n).length = substr.length + t.length := by
    rw [← ht, List.length_append]
  rw [List.length_drop] at hlen
  refine ⟨by omega, ?_⟩
  have hdrop : s.drop (n + substr.length) = t := by
    rw [← List.drop_drop, ← ht, List.drop_left]
  rw [hdrop, List.append_assoc, ht, List.take_append_drop]

/-- A non-negative result of `strings.Index` is the offset of the first occurrence. -/
theorem Index_found {s substr : Str} {n : Nat} (h : Index s substr = (n : Int)) :
    n ≤ s.length ∧ occursAt s substr n ∧ ∀ j, j < n → ¬ occursAt s substr j := by
  rcases Index_spec s substr with ⟨hneg, _⟩ | ⟨k, hk, hval, hocc, hmin⟩
  · rw [hneg] at h; omega
  · have hkn : k = n := by
      rw [hval] at h
      exact_mod_cast h
    subst hkn
    exact ⟨hk, hocc, hmin⟩

/-- The result of `strings.Index` is `-1` or an offset. -/
theorem Index_cases (s substr : Str) :
    Index s substr = -1 ∨ ∃ n : Nat, Index s substr = (n : Int) := by
  rcases Index_spec s substr with ⟨hneg, _⟩ | ⟨k, _, hval, _, _⟩
  · exact Or.inl hneg
  · exact Or.inr ⟨k, hval⟩

/-- Content that passes the opening test has at least four bytes, so `content[4:]` is in
range. -/
theorem sliceFrom_four_of_open (content : Str)
    (hopen : (!HasPrefix content (bytes "---\n") && !HasPrefix content (bytes "---\r\n"))
      = false) :
    4 ≤ content.length ∧ sliceFrom content 4 = some (content.drop 4) := by
  have hlen : 4 ≤ content.length := by
    by_cases h1 : HasPrefix content (bytes "---\n") = true
    · have := ((HasPrefix_iff _ _).1 h1).length_le
      rw [bytes_open_lf] at this
      simpa using this
    · by_cases h2 : HasPrefix content (bytes "---\r\n") = true
      · have := ((HasPrefix_iff _ _).1 h2).length_le
        rw [bytes_open_crlf] at this
        have h5 : 5 ≤ content.length := by simpa using this
        omega
      · simp [h1, h2] at hopen
  exact ⟨hlen, by exact_mod_cast sliceFrom_of_le content 4 hlen⟩

/-- Rule of the splitter: no interior closing boundary and no `"\n---"` at the end. -/
theorem parseFrontmatter_rule_none {ε : Type} (decode : Str → Except ε Props)
    (content : Str)
    (hopen : (!HasPrefix content (bytes "---\n") && !HasPrefix content (bytes "---\r\n"))
      = false)
    (hidx : Index (content.drop 4) (bytes "\n---\n") = -1)
    (hidxR : Index (content.drop 4) (bytes "\r\n---\r\n") = -1)
    (hsuf : HasSuffix (content.drop 4) (bytes "\n---") = false) :
    parseFrontmatter decode content = some ⟨none, content, []⟩ := by
  have hsufR : HasSuffix (content.drop 4) (bytes "\r\n---") = false := by
    rw [Bool.eq_false_iff]
    intro h
    have h2 : bytes "\r\n---" <:+ content.drop 4 := (HasSuffix_iff _ _).1 h
    have h3 : bytes "\n---" <:+ bytes "\r\n---" := by decide
    have h4 := (HasSuffix_iff _ _).2 (h3.trans h2)
    rw [hsuf] at h4
    exact Bool.false_ne_true h4
  unfold parseFrontmatter
  simp only [hopen, (sliceFrom_four_of_open content hopen).2, Option.bind_eq_bind,
    Option.some_bind, hidx, hidxR, hsuf, hsufR]
  simp

/-- Rule of the splitter: no interior closing boundary, `"\n---"` at the end. -/
theorem parseFrontmatter_rule_tail {ε : Type} (decode : Str → Except ε Props)
    (content : Str)
    (hopen : (!HasPrefix content (bytes "---\n") && !HasPrefix content (bytes "---\r\n"))
      = false)
    (hidx : Index (content.drop 4) (bytes "\n---\n") = -1)
    (hidxR : Index (content.drop 4) (bytes "\r\n---\r\n") = -1)
    (hsuf : HasSuffix (content.drop 4) (bytes "\n---") = true) :
    4 ≤ (content.drop 4).length ∧
    parseFrontmatter decode content
      = some ⟨parseYAML decode ((content.drop 4).take ((content.drop 4).length - 4)), [],
          [(content.drop 4).take ((content.drop 4).length - 4)]⟩ := by
  have hlen : 4 ≤ (content.drop 4).length := by
    have := ((HasSuffix_iff _ _).1 hsuf).length_le
    rw [bytes_tail_lf] at this
    simpa using this
  have hcast : ((content.drop 4).length : Int) - 4 = (((content.drop 4).length - 4 : Nat) : Int) := by
    omega
  have hto := sliceTo_of_le (content.drop 4) ((content.drop 4).length - 4) (by omega)
  have hnn : ¬ ((((content.drop 4).length - 4 : Nat) : Int) < 0) := by omega
  refine ⟨hlen, ?_⟩
  unfold parseFrontmatter
  simp only [hopen, (sliceFrom_four_of_open content hopen).2, Option.bind_eq_bind,
    Option.some_bind, hidx, hidxR, hsuf, hcast, hto, if_true, if_neg hnn]
  simp

/-- Rule of the splitter: the newline-only closing boundary is found at `n`, the other
variant not at all or not before. -/
theorem parseFrontmatter_rule_lf {ε : Type} (decode : Str → Except ε Props)
    (content : Str) (n : Nat)
    (hopen : (!HasPrefix content (bytes "---\n") && !HasPrefix content (bytes "---\r\n"))
      = false)
    (hidx : Index (content.drop 4) (bytes "\n---\n") = (n : Int))
    (hsel : Index (content.drop 4) (bytes "\r\n---\r\n") < 0 ∨
      (n : Int) ≤ Index (content.drop 4) (bytes "\r\n---\r\n")) :
    n + 5 ≤ (content.drop 4).length ∧
    parseFrontmatter decode content
      = some ⟨parseYAML decode ((content.drop 4).take n), (content.drop 4).drop (n + 5),
          [(content.drop 4).take n]⟩ := by
  obtain ⟨hle, hocc, _⟩ := Index_found hidx
  have h5 : n + 5 ≤ (content.drop 4).length := by
    have := (occursAt_split hle hocc).1
    rw [bytes_close_lf] at this
    simpa using this
  have hto := sliceTo_of_le (content.drop 4) n hle
  have hfrom : sliceFrom (content.drop 4) ((n : Int) + 5) = some ((content.drop 4).drop (n + 5)) := by
    exact_mod_cast sliceFrom_of_le (content.drop 4) (n + 5) h5
  have hnot : ¬ (Index (content.drop 4) (bytes "\n---\n") < 0 ∧
      Index (content.drop 4) (bytes "\r\n---\r\n") < 0) := by
    rw [hidx]; omega
  have hpos : 0 ≤ Index (content.drop 4) (bytes "\n---\n") ∧
      (Index (content.drop 4) (bytes "\r\n---\r\n") < 0 ∨
        Index (content.drop 4) (bytes "\n---\n")
          ≤ Index (content.drop 4) (bytes "\r\n---\r\n")) := by
    rw [hidx]
    exact ⟨by omega, hsel⟩
  refine ⟨h5, ?_⟩
  unfold parseFrontmatter
  simp only [hopen, (sliceFrom_four_of_open content hopen).2, Option.bind_eq_bind,
    Option.some_bind]
  rw [if_neg hnot, if_pos hpos, hidx, hto, hfrom]
  rfl

/-- Rule of the splitter: the carriage-return closing boundary is found at `n`, the
newline-only variant not at all or only after. -/
theorem parseFrontmatter_rule_crlf {ε : Type} (decode : Str → Except ε Props)
    (content : Str) (n : Nat)
    (hopen : (!HasPrefix content (bytes "---\n") && !HasPrefix content (bytes "---\r\n"))
      = false)
    (hidxR : Index (content.drop 4) (bytes "\r\n---\r\n") = (n : Int))
    (hsel : Index (content.drop 4) (bytes "\n---\n") < 0 ∨
      (n : Int) < Index (content.drop 4) (bytes "\n---\n")) :
    n + 7 ≤ (content.drop 4).length ∧
    parseFrontmatter decode content
      = some ⟨parseYAML decode ((content.drop 4).take n), (content.drop 4).drop (n + 7),
          [(content.drop 4).take n]⟩ := by
  obtain ⟨hle, hocc, _⟩ := Index_found hidxR
  have h7 : n + 7 ≤ (content.drop 4).length := by
    have := (occursAt_split hle hocc).1
    rw [bytes_close_crlf] at this
    simpa using this
  have hto := sliceTo_of_le (content.drop 4) n hle
  have hfrom : sliceFrom (content.drop 4) ((n : Int) + 7) = some ((content.drop 4).drop (n + 7)) := by
    exact_mod_cast sliceFrom_of_le (content.drop 4) (n + 7) h7
  have hnot : ¬ (Index (content.drop 4) (bytes "\n---\n") < 0 ∧
      Index (content.drop 4) (bytes "\r\n---\r\n") < 0) := by
    rw [hidxR]; omega
  have hneg : ¬ (0 ≤ Index (content.drop 4) (bytes "\n---\n") ∧
      (Index (content.drop 4) (bytes "\r\n---\r\n") < 0 ∨
        Index (content.drop 4) (bytes "\n---\n")
          ≤ Index (content.drop 4) (bytes "\r\n---\r\n"))) := by
    rw [hidxR]
    rcases hsel with h | h <;> omega
  refine ⟨h7, ?_⟩
  unfold parseFrontmatter
  simp only [hopen, (sliceFrom_four_of_open content hopen).2, Option.bind_eq_bind,
    Option.some_bind]
  rw [if_neg hnot, if_neg hneg, hidxR, hto, hfrom]
  rfl

/-- Every run of the splitter: either it returns the content whole without calling the
decoder, or it calls the decoder once on a text `m` and the content is its first four
bytes, `m`, a delimiter and the body. -/
theorem parseFrontmatter_cases {ε : Type} (decode : Str → Except ε Props) (content : Str) :
    parseFrontmatter decode content = some ⟨none, content, []⟩ ∨
    ∃ m d body, (d = closeLF ∨ d = closeCRLF ∨ (d = tailLF ∧ body = [])) ∧
      4 ≤ content.length ∧ content = content.take 4 ++ m ++ d ++ body ∧
      parseFrontmatter decode content = some ⟨parseYAML decode m, body, [m]⟩ := by
  by_cases hopen : (!HasPrefix content (bytes "---\n") &&
      !HasPrefix content (bytes "---\r\n")) = false
  · obtain ⟨hlen, _⟩ := sliceFrom_four_of_open content hopen
    have hc : content = content.take 4 ++ content.drop 4 := (List.take_append_drop 4 content).symm
    have hjoin : ∀ m d body : Str, content.drop 4 = m ++ d ++ body →
        content = content.take 4 ++ m ++ d ++ body := by
      intro m d body h
      have h2 : content.take 4 ++ m ++ d ++ body = content.take 4 ++ (m ++ d ++ body) := by
        simp only [List.append_assoc]
      rw [h2, ← h]
      exact hc
    rcases Index_cases (content.drop 4) (bytes "\n---\n") with h1 | ⟨n, h1⟩
    · rcases Index_cases (content.drop 4) (bytes "\r\n---\r\n") with h2 | ⟨k, h2⟩
      · by_cases hsuf : HasSuffix (content.drop 4) (bytes "\n---") = true
        · right
          obtain ⟨_, hres⟩ := parseFrontmatter_rule_tail decode content hopen h1 h2 hsuf
          refine ⟨_, tailLF, [], Or.inr (Or.inr ⟨rfl, rfl⟩), hlen, ?_, hres⟩
          apply hjoin
          have hs : tailLF <:+ content.drop 4 := (HasSuffix_iff _ _).1 hsuf
          have := List.suffix_iff_eq_append.1 hs
          rw [tailLF_length] at this
          rw [List.append_nil]
          exact this.symm
        · left
          exact parseFrontmatter_rule_none decode content hopen h1 h2
            (by simpa using hsuf)
      · right
        obtain ⟨_, hres⟩ := parseFrontmatter_rule_crlf decode content k hopen h2
          (Or.inl (by rw [h1]; omega))
        obtain ⟨hle, hocc, _⟩ := Index_found h2
        refine ⟨_, closeCRLF, _, Or.inr (Or.inl rfl), hlen, ?_, hres⟩
        apply hjoin
        have := (occursAt_split hle hocc).2
        rw [bytes_close_crlf] at this
        simpa [closeCRLF, bytes_close_crlf] using this
    · obtain ⟨hle, hocc, _⟩ := Index_found h1
      have hsplit : content.drop 4
          = (content.drop 4).take n ++ closeLF ++ (content.drop 4).drop (n + 5) := by
        have := (occursAt_split hle hocc).2
        rw [bytes_close_lf] at this
        simpa [closeLF, bytes_close_lf] using this
      rcases Index_cases (content.drop 4) (bytes "\r\n---\r\n") with h2 | ⟨k, h2⟩
      · right
        obtain ⟨_, hres⟩ := parseFrontmatter_rule_lf decode content n hopen h1
          (Or.inl (by rw [h2]; omega))
        exact ⟨_, closeLF, _, Or.inl rfl, hlen, hjoin _ _ _ hsplit, hres⟩
      · by_cases hnk : n ≤ k
        · right
          obtain ⟨_, hres⟩ := parseFrontmatter_rule_lf decode content n hopen h1
            (Or.inr (by rw [h2]; exact_mod_cast hnk))
          exact ⟨_, closeLF, _, Or.inl rfl, hlen, hjoin _ _ _ hsplit, hres⟩
        · right
          obtain ⟨_, hres⟩ := parseFrontmatter_rule_crlf decode content k hopen h2
            (Or.inr (by rw [h1]; exact_mod_cast (Nat.lt_of_not_le hnk)))
          obtain ⟨hle2, hocc2, _⟩ := Index_found h2
          refine ⟨_, closeCRLF, _, Or.inr (Or.inl rfl), hlen, ?_, hres⟩
          apply hjoin
          have := (occursAt_split hle2 hocc2).2
          rw [bytes_close_crlf] at this
          simpa [closeCRLF, bytes_close_crlf] using this
  · left
    have h1 : HasPrefix content (bytes "---\n") = false := by
      cases h : HasPrefix content (bytes "---\n") with
      | false => rfl
      | true => simp [h] at hopen
    have h2 : HasPrefix content (bytes "---\r\n") = false := by
      cases h : HasPrefix content (bytes "---\r\n") with
      | false => rfl
      | true => simp [h] at hopen
    exact parseFrontmatter_not_open decode content h1 h2

/-- The two closing boundaries never start at the same offset: one starts with a newline,
the other with a carriage return. -/
theorem closing_offsets_differ {s : Str} {n k : Nat} (h1 : occursAt s (bytes "\n---\n") n)
    (h2 : occursAt s (bytes "\r\n---\r\n") k) : n ≠ k := by
  intro hnk
  subst hnk
  obtain ⟨t1, ht1⟩ := h1
  obtain ⟨t2, ht2⟩ := h2
  rw [bytes_close_lf] at ht1
  rw [bytes_close_crlf, ← ht1] at ht2
  simp only [List.cons_append, List.cons.injEq] at ht2
  exact absurd ht2.1 (by decide)

/-- The keys of a record built from nil metadata are the computed ones. -/
theorem buildResult_nil_keys (filename body : Str) (mtime : Option Str) (k : Str) :
    k ∈ (buildResult none filename body mtime).result ↔
      (k = bytes "filename" ∨ k = bytes "body" ∨
        (k = bytes "mtime" ∧ mtime.isSome = true)) := by
  rw [← AList.lookup_isSome, buildResult_lookup]
  by_cases h3 : k = bytes "mtime" ∧ mtime.isSome = true
  · rw [if_pos h3]
    obtain ⟨_, hm⟩ := h3
    cases mtime with
    | none => simp at hm
    | some t => simp_all
  · rw [if_neg h3]
    by_cases h2 : k = bytes "body"
    · simp [h2]
    · rw [if_neg h2]
      by_cases h1 : k = bytes "filename"
      · simp [h1]
      · rw [if_neg h1]
        simp [getProp, h1, h2, h3]

/-! ## Further claims about `parseFrontmatter` -/

/-- C11 (code defect, CRLF opening): decode failure is not fatal, but the body is not
always the text after the closing boundary. For every LF-opened content `"---\n" ++ m ++ c
++ b` whose closing boundary `c` at offset `len m` is the first one and whose metadata text
`m` the decoder rejects, the splitter returns nil metadata and the body `b`, and the record
built from that has exactly the keys `filename`, `body` and, when an mtime is provided,
`mtime`: as the claim says. For the CRLF-opened `"---\r\n---\nX: [\n---\nB"` (metadata
text `"---\nX: ["`, closing boundary `"\n---\n"`, body `"B"`) the code takes
`content[4:]`, finds `"\n---\n"` at offset 0, hands the empty text to the decoder and
returns the body `"X: [\n---\nB"`, whatever the decoder does. -/
theorem parseFrontmatter_decode_failure_crlf_open {ε : Type}
    (decode : Str → Except ε Props) :
    (bytes "---\r\n" ++ bytes "---\nX: [" ++ closeLF ++ bytes "B"
        = bytes "---\r\n---\nX: [\n---\nB" ∧
      ∀ j, j < (bytes "---\nX: [").length →
        ¬ occursAt (bytes "---\nX: [" ++ closeLF ++ bytes "B") closeLF j ∧
          ¬ occursAt (bytes "---\nX: [" ++ closeLF ++ bytes "B") closeCRLF j) ∧
    parseFrontmatter decode (bytes "---\r\n---\nX: [\n---\nB")
      = some ⟨parseYAML decode [], bytes "X: [\n---\nB", [[]]⟩ ∧
    bytes "X: [\n---\nB" ≠ bytes "B" ∧
    (∀ e : ε, decode (bytes "---\nX: [") = .error e →
      parseFrontmatter decode (bytes "---\n---\nX: [\n---\nB")
        = some ⟨none, bytes "B", [bytes "---\nX: ["]⟩) ∧
    (∀ (m c b : Str) (e : ε), (c = closeLF ∨ c = closeCRLF) →
      (∀ j, j < m.length →
        ¬ occursAt (m ++ c ++ b) closeLF j ∧ ¬ occursAt (m ++ c ++ b) closeCRLF j) →
      decode m = .error e →
      parseFrontmatter decode (bytes "---\n" ++ m ++ c ++ b) = some ⟨none, b, [m]⟩ ∧
      ∀ (filename : Str) (mtime : Option Str) (k : Str),
        k ∈ (buildResult none filename b mtime).result ↔
          (k = bytes "filename" ∨ k = bytes "body" ∨
            (k = bytes "mtime" ∧ mtime.isSome = true))) := by
  have hlf : ∀ (m c b : Str) (e : ε), (c = closeLF ∨ c = closeCRLF) →
      (∀ j, j < m.length →
        ¬ occursAt (m ++ c ++ b) closeLF j ∧ ¬ occursAt (m ++ c ++ b) closeCRLF j) →
      decode m = .error e →
      parseFrontmatter decode (bytes "---\n" ++ m ++ c ++ b) = some ⟨none, b, [m]⟩ := by
    intro m c b e hc hfirst hrej
    have hnil : parseYAML decode m = none := by
      unfold parseYAML
      rw [hrej]
    have hassoc : bytes "---\n" ++ m ++ c ++ b = bytes "---\n" ++ (m ++ c ++ b) := by
      simp only [List.append_assoc]
    rw [hassoc, ← hnil]
    rcases hc with h | h
    · subst h
      exact parseFrontmatter_interior_lf decode _ m b (by decide)
        (Or.inl (HasPrefix_open_lf _)) hfirst
    · subst h
      exact parseFrontmatter_interior_crlf decode _ m b (by decide)
        (Or.inl (HasPrefix_open_lf _)) hfirst
  refine ⟨by decide, ?_, by decide, ?_, ?_⟩
  · have e : bytes "---\r\n---\nX: [\n---\nB"
        = bytes "---\r" ++ ([] ++ closeLF ++ bytes "X: [\n---\nB") := by decide
    rw [e]
    exact parseFrontmatter_interior_lf decode _ [] _ (by decide) (Or.inr (by decide))
      (fun j hj => absurd hj (Nat.not_lt_zero j))
  · intro e hrej
    have h := hlf (bytes "---\nX: [") closeLF (bytes "B") e (Or.inl rfl) (by decide) hrej
    have e2 : bytes "---\n---\nX: [\n---\nB"
        = bytes "---\n" ++ bytes "---\nX: [" ++ closeLF ++ bytes "B" := by decide
    rw [e2]
    exact h
  · intro m c b e hc hfirst hrej
    exact ⟨hlf m c b e hc hfirst hrej,
      fun filename mtime k => buildResult_nil_keys filename b mtime k⟩

/-- C18: the splitter always returns, and either the decoder is not called and the body is
the content, or the decoder is called once, on a text `m`, and the content is its first
four bytes followed by `m`, a delimiter `"\n---\n"`, `"\r\n---\r\n"` or `"\n---"`, and the
body, the body being empty for `"\n---"`; the body is always a suffix of the content. -/
theorem parseFrontmatter_loses_no_byte {ε : Type} (decode : Str → Except ε Props)
    (content : Str) :
    ∃ r, parseFrontmatter decode content = some r ∧
      ((r.decoded = [] ∧ r.body = content) ∨
        ∃ m d, r.decoded = [m] ∧ r.props = parseYAML decode m ∧
          (d = bytes "\n---\n" ∨ d = bytes "\r\n---\r\n" ∨ d = bytes "\n---") ∧
          (d = bytes "\n---" → r.body = []) ∧
          4 ≤ content.length ∧ content = content.take 4 ++ m ++ d ++ r.body) ∧
      r.body <:+ content := by
  rcases parseFrontmatter_cases decode content with h | ⟨m, d, body, hd, hlen, hc, h⟩
  · exact ⟨_, h, Or.inl ⟨rfl, rfl⟩, List.suffix_refl _⟩
  · refine ⟨_, h, Or.inr ⟨m, d, rfl, rfl, ?_, ?_, hlen, hc⟩, ?_⟩
    · rcases hd with h1 | h1 | h1
      · exact Or.inl h1
      · exact Or.inr (Or.inl h1)
      · exact Or.inr (Or.inr h1.1)
    · intro hdt
      rcases hd with h1 | h1 | h1
      · rw [h1] at hdt; exact absurd hdt (by decide)
      · rw [h1] at hdt; exact absurd hdt (by decide)
      · exact h1.2
    · exact ⟨content.take 4 ++ m ++ d, hc.symm⟩

/-- C19: the splitter returns a result on every byte string (no slice expression panics),
and each slice it takes is in range: `content[4:]` after the opening test, `rest[:idx]`
for `idx = len(rest)-4` and `len(rest)-5` under the respective suffix test, and
`rest[:idx]`, `rest[idx+5:]`, `rest[:idxR]`, `rest[idxR+7:]` for found offsets. -/
theorem parseFrontmatter_total {ε : Type} (decode : Str → Except ε Props) (content : Str) :
    (parseFrontmatter decode content).isSome = true ∧
    ((!HasPrefix content (bytes "---\n") && !HasPrefix content (bytes "---\r\n")) = false →
      (sliceFrom content 4).isSome = true) ∧
    (∀ rest : Str, HasSuffix rest (bytes "\n---") = true →
      (sliceTo rest ((rest.length : Int) - 4)).isSome = true) ∧
    (∀ rest : Str, HasSuffix rest (bytes "\r\n---") = true →
      (sliceTo rest ((rest.length : Int) - 5)).isSome = true) ∧
    (∀ rest : Str, 0 ≤ Index rest (bytes "\n---\n") →
      (sliceTo rest (Index rest (bytes "\n---\n"))).isSome = true ∧
      (sliceFrom rest (Index rest (bytes "\n---\n") + 5)).isSome = true) ∧
    (∀ rest : Str, 0 ≤ Index rest (bytes "\r\n---\r\n") →
      (sliceTo rest (Index rest (bytes "\r\n---\r\n"))).isSome = true ∧
      (sliceFrom rest (Index rest (bytes "\r\n---\r\n") + 7)).isSome = true) := by
  refine ⟨?_, ?_, ?_, ?_, ?_, ?_⟩
  · rcases parseFrontmatter_cases decode content with h | ⟨m, d, body, _, _, _, h⟩ <;>
      rw [h] <;> rfl
  · intro hopen
    rw [(sliceFrom_four_of_open content hopen).2]
    rfl
  · intro rest hsuf
    have hlen := ((HasSuffix_iff _ _).1 hsuf).length_le
    rw [bytes_tail_lf] at hlen
    have h4 : 4 ≤ rest.length := by simpa using hlen
    have hcast : ((rest.length : Int) - 4) = ((rest.length - 4 : Nat) : Int) := by omega
    rw [hcast, sliceTo_of_le rest _ (by omega)]
    rfl
  · intro rest hsuf
    have hlen := ((HasSuffix_iff _ _).1 hsuf).length_le
    rw [bytes_tail_crlf] at hlen
    have h5 : 5 ≤ rest.length := by simpa using hlen
    have hcast : ((rest.length : Int) - 5) = ((rest.length - 5 : Nat) : Int) := by omega
    rw [hcast, sliceTo_of_le rest _ (by omega)]
    rfl
  · intro rest hpos
    rcases Index_cases rest (bytes "\n---\n") with h | ⟨n, h⟩
    · rw [h] at hpos; omega
    · obtain ⟨hle, hocc, _⟩ := Index_found h
      have h5 := (occursAt_split hle hocc).1
      rw [bytes_close_lf] at h5
      have h5' : n + 5 ≤ rest.length := by simpa using h5
      have hfrom : sliceFrom rest ((n : Int) + 5) = some (rest.drop (n + 5)) := by
        exact_mod_cast sliceFrom_of_le rest (n + 5) h5'
      rw [h, sliceTo_of_le rest n hle, hfrom]
      exact ⟨rfl, rfl⟩
  · intro rest hpos
    rcases Index_cases rest (bytes "\r\n---\r\n") with h | ⟨n, h⟩
    · rw [h] at hpos; omega
    · obtain ⟨hle, hocc, _⟩ := Index_found h
      have h7 := (occursAt_split hle hocc).1
      rw [bytes_close_crlf] at h7
      have h7' : n + 7 ≤ rest.length := by simpa using h7
      have hfrom : sliceFrom rest ((n : Int) + 7) = some (rest.drop (n + 7)) := by
        exact_mod_cast sliceFrom_of_le rest (n + 7) h7'
      rw [h, sliceTo_of_le rest n hle, hfrom]
      exact ⟨rfl, rfl⟩

/-- C19 on the shortest inputs `"---\n"`, `"---\r\n"`, `"---\n---"` (returned whole) and
`"---\n\n---"` (empty metadata text, empty body). -/
theorem parseFrontmatter_total_witness :
    parseFrontmatter sampleDecode (bytes "---\n") = some ⟨none, bytes "---\n", []⟩ ∧
    parseFrontmatter sampleDecode (bytes "---\r\n") = some ⟨none, bytes "---\r\n", []⟩ ∧
    parseFrontmatter sampleDecode (bytes "---\n---") = some ⟨none, bytes "---\n---", []⟩ ∧
    parseFrontmatter sampleDecode (bytes "---\n\n---")
      = some ⟨parseYAML sampleDecode [], [], [[]]⟩ ∧
    (parseFrontmatter sampleDecode (bytes "---\n\n---")).isSome = true :=
  ⟨rfl, rfl, rfl, rfl, (parseFrontmatter_total sampleDecode (bytes "---\n\n---")).1⟩

/-- C20: when `strings.Index` finds both closing boundaries in `rest`, the two offsets are
different, so `idx <= idxR` holds exactly when `idx < idxR`; and for every content that
passes the opening test and has `rest` as `content[4:]`, the split is made at the strictly
smaller offset: the decoder gets `rest` up to it and the body starts 5 bytes later for the
newline-only boundary, 7 bytes later for the carriage-return one. -/
theorem closing_boundary_tie_never {ε : Type} (decode : Str → Except ε Props) (rest : Str)
    (h1 : 0 ≤ Index rest (bytes "\n---\n")) (h2 : 0 ≤ Index rest (bytes "\r\n---\r\n")) :
    Index rest (bytes "\n---\n") ≠ Index rest (bytes "\r\n---\r\n") ∧
    (Index rest (bytes "\n---\n") ≤ Index rest (bytes "\r\n---\r\n") ↔
      Index rest (bytes "\n---\n") < Index rest (bytes "\r\n---\r\n")) ∧
    (∀ content : Str,
      (!HasPrefix content (bytes "---\n") && !HasPrefix content (bytes "---\r\n")) = false →
      content.drop 4 = rest →
      parseFrontmatter decode content =
        if Index rest (bytes "\n---\n") < Index rest (bytes "\r\n---\r\n") then
          some ⟨parseYAML decode (rest.take (Index rest (bytes "\n---\n")).toNat),
            rest.drop ((Index rest (bytes "\n---\n")).toNat + 5),
            [rest.take (Index rest (bytes "\n---\n")).toNat]⟩
        else
          some ⟨parseYAML decode (rest.take (Index rest (bytes "\r\n---\r\n")).toNat),
            rest.drop ((Index rest (bytes "\r\n---\r\n")).toNat + 7),
            [rest.take (Index rest (bytes "\r\n---\r\n")).toNat]⟩) := by
  rcases Index_cases rest (bytes "\n---\n") with h | ⟨n, hn⟩
  · rw [h] at h1; omega
  rcases Index_cases rest (bytes "\r\n---\r\n") with h | ⟨k, hk⟩
  · rw [h] at h2; omega
  have hne : n ≠ k := closing_offsets_differ (Index_found hn).2.1 (Index_found hk).2.1
  rw [hn, hk]
  refine ⟨?_, ?_, ?_⟩
  · intro h
    exact hne (by exact_mod_cast h)
  · constructor
    · intro h
      have h3 : n ≤ k := by exact_mod_cast h
      have h4 : n < k := lt_of_le_of_ne h3 hne
      exact_mod_cast h4
    · intro h
      exact le_of_lt h
  · intro content hopen hrest
    subst hrest
    by_cases hlt : (n : Int) < (k : Int)
    · rw [if_pos hlt]
      simp only [Int.toNat_ofNat]
      exact (parseFrontmatter_rule_lf decode content n hopen hn
        (Or.inr (by rw [hk]; exact le_of_lt hlt))).2
    · rw [if_neg hlt]
      simp only [Int.toNat_ofNat]
      have hkn : (k : Int) < (n : Int) := by
        have h3 : ¬ n < k := by exact_mod_cast hlt
        have h4 : k < n := lt_of_le_of_ne (Nat.le_of_not_lt h3) (Ne.symm hne)
        exact_mod_cast h4
      exact (parseFrontmatter_rule_crlf decode content k hopen hk
        (Or.inr (by rw [hn]; exact hkn))).2

/-- C20 on a text holding both boundaries, the carriage-return one first (offsets 7 and 1):
the split is made at offset 1. -/
theorem closing_boundary_tie_never_witness :
    (0 ≤ Index (bytes "a\r\n---\r\n---\nb") (bytes "\n---\n") ∧
      0 ≤ Index (bytes "a\r\n---\r\n---\nb") (bytes "\r\n---\r\n")) ∧
    Index (bytes "a\r\n---\r\n---\nb") (bytes "\n---\n") = 7 ∧
    Index (bytes "a\r\n---\r\n---\nb") (bytes "\r\n---\r\n") = 1 ∧
    Index (bytes "a\r\n---\r\n---\nb") (bytes "\n---\n")
      ≠ Index (bytes "a\r\n---\r\n---\nb") (bytes "\r\n---\r\n") ∧
    parseFrontmatter sampleDecode (bytes "---\na\r\n---\r\n---\nb")
      = some ⟨parseYAML sampleDecode (bytes "a"), bytes "---\nb", [bytes "a"]⟩ :=
  ⟨by decide, by decide, by decide,
    (closing_boundary_tie_never sampleDecode (bytes "a\r\n---\r\n---\nb") (by decide)
      (by decide)).1,
    rfl⟩

/-! ## Facts about the query projector -/

/-- The loop of `applyJQ` on results that all have a rendering, followed by further
results: the renderings are appended in order and the loop goes on with the rest. -/
theorem drain_rendered {ε Q C : Type} (x : Externals ε Q C) (rawOutput : Bool)
    (line : Value → Str) (vs : List Value) (later : List (Except ε Value)) (w : Str)
    (hline : ∀ v ∈ vs, rendering x rawOutput v = .ok (line v)) :
    drain x rawOutput (vs.map Except.ok ++ later) w
      = drain x rawOutput later (w ++ (vs.map line).flatten) := by
  induction vs generalizing w with
  | nil => simp
  | cons v t ih =>
    have hv := hline v (List.mem_cons_self v t)
    have ht := fun w' => ih w' (fun u hu => hline u (List.mem_cons_of_mem v hu))
    simp only [List.map_cons, List.cons_append, List.flatten_cons]
    unfold rendering at hv
    rw [drain]
    cases hs : (if rawOutput = true then scalarToString x.float v else none) with
    | some text =>
      rw [hs] at hv
      simp only [Except.ok.injEq] at hv
      simp only []
      rw [ht, ← hv]
      simp only [List.append_assoc]
    | none =>
      rw [hs] at hv
      simp only []
      cases hm : x.marshal v with
      | error err => rw [hm] at hv; cases hv
      | ok text =>
        rw [hm] at hv
        simp only [Except.ok.injEq] at hv
        simp only []
        rw [ht, ← hv]
        simp only [List.append_assoc]

/-- What `applyJQ` does once the expression is compiled. -/
theorem applyJQ_compiled {ε Q C : Type} (x : Externals ε Q C) (input : Value) (expr w : Str)
    (rawOutput : Bool) (query : Q) (code : C) (hparse : x.parse expr = .ok query)
    (hcompile : x.compile query = .ok code) :
    applyJQ x input expr w rawOutput
      = ⟨(drain x rawOutput (x.run code input) w).1,
          (drain x rawOutput (x.run code input) w).2, true⟩ := by
  unfold applyJQ
  rw [hparse]
  simp only []
  rw [hcompile]

/-- With the raw flag off, the rendering is the marshalled value and a newline. -/
theorem rendering_structured {ε Q C : Type} (x : Externals ε Q C) (v : Value) (text : Str)
    (h : x.marshal v = .ok text) : rendering x false v = .ok (text ++ [10]) := by
  unfold rendering
  simp [h]

/-- When the results `vs` have renderings and the next result is a value the marshaller
rejects (and, in raw mode, without scalar text), `applyJQ` returns the marshaller's error
after writing the renderings of `vs`. -/
theorem applyJQ_marshal_error {ε Q C : Type} (x : Externals ε Q C) (input : Value)
    (expr w : Str) (rawOutput : Bool) (query : Q) (code : C) (vs : List Value) (v : Value)
    (err : ε) (later : List (Except ε Value)) (line : Value → Str)
    (hparse : x.parse expr = .ok query) (hcompile : x.compile query = .ok code)
    (hrun : x.run code input = vs.map Except.ok ++ Except.ok v :: later)
    (hline : ∀ u ∈ vs, rendering x rawOutput u = .ok (line u))
    (hv : rendering x rawOutput v = .error err) :
    applyJQ x input expr w rawOutput
      = ⟨some (.ext err), w ++ (vs.map line).flatten, true⟩ := by
  rw [applyJQ_compiled x input expr w rawOutput query code hparse hcompile, hrun,
    drain_rendered x rawOutput line vs _ w hline]
  unfold rendering at hv
  rw [drain]
  cases hs : (if rawOutput = true then scalarToString x.float v else none) with
  | some text => rw [hs] at hv; cases hv
  | none =>
    rw [hs] at hv
    simp only []
    cases hm : x.marshal v with
    | ok text => rw [hm] at hv; cases hv
    | error e2 =>
      rw [hm] at hv
      simp only [Except.error.injEq] at hv
      rw [hv]

/-! ## Claims about the query projector -/

/-- C12 (amended): structured mode. When the expression parses and compiles and the query
yields the values `vs` (no error value), each of which the encoder accepts and turns into
the text `enc v`, `applyJQ` with the raw flag off returns no error and the sink receives,
in the order of the results, `enc v` and a newline for every value, scalar or not. -/
theorem applyJQ_structured {ε Q C : Type} (x : Externals ε Q C) (input : Value)
    (expr w : Str) (query : Q) (code : C) (vs : List Value) (enc : Value → Str)
    (hparse : x.parse expr = .ok query) (hcompile : x.compile query = .ok code)
    (hrun : x.run code input = vs.map Except.ok)
    (henc : ∀ v ∈ vs, x.marshal v = .ok (enc v)) :
    applyJQ x input expr w false
      = ⟨none, w ++ (vs.map (fun v => enc v ++ [10])).flatten, true⟩ := by
  rw [applyJQ_compiled x input expr w false query code hparse hcompile, hrun]
  have h := drain_rendered x false (fun v => enc v ++ [10]) vs [] w
    (fun v hv => rendering_structured x v (enc v) (henc v hv))
  rw [List.append_nil] at h
  rw [h]
  rfl

/-- C12 at the queries of the tests: `.a, .b` over a mapping with `a: 1`, `b: 2` writes
`"1\n2\n"`, and `.name` over a mapping with `name: "hello"` writes `"\"hello\"\n"`. -/
theorem applyJQ_structured_witness :
    applyJQ sampleExternals (.map [(bytes "a", .int 1), (bytes "b", .int 2)])
        (bytes ".a, .b") [] false
      = ⟨none, bytes "1\n2\n", true⟩ ∧
    applyJQ sampleExternals (.map [(bytes "name", .str (bytes "hello"))])
        (bytes ".name") [] false
      = ⟨none, bytes "\"hello\"\n", true⟩ :=
  ⟨applyJQ_structured sampleExternals (.map [(bytes "a", .int 1), (bytes "b", .int 2)])
      (bytes ".a, .b") [] (bytes ".a, .b") (bytes ".a, .b") [.int 1, .int 2]
      (fun v => match sampleMarshal v with | .ok t => t | .error _ => [])
      rfl rfl rfl
      (fun v hv => by
        rcases List.mem_cons.1 hv with h | h
        · rw [h]; rfl
        · rw [List.mem_singleton.1 h]; rfl),
    applyJQ_structured sampleExternals (.map [(bytes "name", .str (bytes "hello"))])
      (bytes ".name") [] (bytes ".name") (bytes ".name") [.str (bytes "hello")]
      (fun v => match sampleMarshal v with | .ok t => t | .error _ => [])
      rfl rfl rfl
      (fun v hv => by rw [List.mem_singleton.1 hv]; rfl)⟩

/-- C12 as stated fails: the query `nan` compiles and yields one value, the `float64` NaN,
and no error value; the encoder rejects NaN, so `applyJQ` with the raw flag off returns
that error and writes nothing, where the claim promises no error and one line. -/
theorem applyJQ_structured_counterexample :
    nanExternals.parse (bytes "nan") = .ok (bytes "nan") ∧
    nanExternals.compile (bytes "nan") = .ok (bytes "nan") ∧
    nanExternals.run (bytes "nan") Value.null = [Value.float64 nanBits].map Except.ok ∧
    applyJQ nanExternals Value.null (bytes "nan") [] false
      = ⟨some (.ext (bytes "json: unsupported value")), [], true⟩ ∧
    (applyJQ nanExternals Value.null (bytes "nan") [] false).err ≠ none :=
  ⟨rfl, rfl, rfl, rfl, fun h => Option.noConfusion h⟩

/-- C15 (amended): evaluation error. When the query yields the values `vs`, each of which
has a rendering `line v` (in raw mode the text of a scalar, otherwise an encoding that the
encoder accepts, and a newline), then an error value `e`, then anything, `applyJQ` returns
`e`, the sink has received exactly the renderings of `vs` in order, and what the query
yields after `e` has no effect. -/
theorem applyJQ_evaluation_error {ε Q C : Type} (x : Externals ε Q C) (input : Value)
    (expr w : Str) (rawOutput : Bool) (query : Q) (code : C) (vs : List Value) (e : ε)
    (later : List (Except ε Value)) (line : Value → Str)
    (hparse : x.parse expr = .ok query) (hcompile : x.compile query = .ok code)
    (hrun : x.run code input = vs.map Except.ok ++ Except.error e :: later)
    (hline : ∀ v ∈ vs, rendering x rawOutput v = .ok (line v)) :
    applyJQ x input expr w rawOutput
      = ⟨some (.ext e), w ++ (vs.map line).flatten, true⟩ := by
  rw [applyJQ_compiled x input expr w rawOutput query code hparse hcompile, hrun,
    drain_rendered x rawOutput line vs _ w hline]
  rfl

/-- C15 at a query that yields 1, an error, then 2: the error is returned and the sink
holds `"1\n"` only. -/
theorem applyJQ_evaluation_error_witness :
    sampleExternals.run (bytes ".a, error, .b") (.map [(bytes "a", .int 1), (bytes "b", .int 2)])
      = [Value.int 1].map Except.ok ++ Except.error () :: [Except.ok (Value.int 2)] ∧
    applyJQ sampleExternals (.map [(bytes "a", .int 1), (bytes "b", .int 2)])
        (bytes ".a, error, .b") [] false
      = ⟨some (.ext ()), bytes "1\n", true⟩ :=
  ⟨rfl,
    applyJQ_evaluation_error sampleExternals
      (.map [(bytes "a", .int 1), (bytes "b", .int 2)]) (bytes ".a, error, .b") [] false
      (bytes ".a, error, .b") (bytes ".a, error, .b") [.int 1] () [Except.ok (Value.int 2)]
      (fun v => match rendering sampleExternals false v with | .ok t => t | .error _ => [])
      rfl rfl rfl
      (fun v hv => by rw [List.mem_singleton.1 hv]; rfl)⟩

/-- C15 as stated fails: the query `nan, error` yields the `float64` NaN and then the
error value `boom`; with the raw flag off the encoder rejects NaN, so `applyJQ` returns the
encoder's error, not `boom`, where the claim promises the error value of the sequence. -/
theorem applyJQ_evaluation_error_counterexample :
    nanExternals.parse (bytes "nan, error") = .ok (bytes "nan, error") ∧
    nanExternals.compile (bytes "nan, error") = .ok (bytes "nan, error") ∧
    nanExternals.run (bytes "nan, error") Value.null
      = [Value.float64 nanBits].map Except.ok ++ [Except.error (bytes "boom")] ∧
    applyJQ nanExternals Value.null (bytes "nan, error") [] false
      = ⟨some (.ext (bytes "json: unsupported value")), [], true⟩ ∧
    (applyJQ nanExternals Value.null (bytes "nan, error") [] false).err
      ≠ some (.ext (bytes "boom")) :=
  ⟨rfl, rfl, rfl, rfl,
    fun h => absurd (GoError.ext.inj (Option.some.inj h)) (by decide)⟩

/-- C16: compilation failure. When the expression fails to parse, or parses and fails to
compile, `applyJQ` returns an error (the cause wrapped by `fmt.Errorf`), the sink is left
as it was, and the query is not evaluated, whatever the input record and the raw flag. -/
theorem applyJQ_compile_failure {ε Q C : Type} (x : Externals ε Q C) (input : Value)
    (expr w : Str) (rawOutput : Bool)
    (hfail : (∃ err, x.parse expr = .error err) ∨
      (∃ query err, x.parse expr = .ok query ∧ x.compile query = .error err)) :
    (∃ text cause, (applyJQ x input expr w rawOutput).err
      = some (.errorf text (.ext cause))) ∧
    (applyJQ x input expr w rawOutput).w = w ∧
    (applyJQ x input expr w rawOutput).evaluated = false := by
  rcases hfail with ⟨err, h⟩ | ⟨query, err, h1, h2⟩
  · unfold applyJQ
    rw [h]
    exact ⟨⟨_, _, rfl⟩, rfl, rfl⟩
  · unfold applyJQ
    rw [h1]
    simp only []
    rw [h2]
    exact ⟨⟨_, _, rfl⟩, rfl, rfl⟩

/-- C16 at the malformed query `.foo[` of the test (parse failure) and at a query that
parses but does not compile. -/
theorem applyJQ_compile_failure_witness :
    (∃ err, sampleExternals.parse (bytes ".foo[") = .error err) ∧
    (applyJQ sampleExternals (.map []) (bytes ".foo[") (bytes "kept") true).w
      = bytes "kept" ∧
    (applyJQ sampleExternals (.map []) (bytes ".foo[") (bytes "kept") true).evaluated
      = false ∧
    (applyJQ sampleExternals (.map []) (bytes "..bad") (bytes "kept") false).w
      = bytes "kept" :=
  ⟨⟨(), rfl⟩,
    (applyJQ_compile_failure sampleExternals (.map []) (bytes ".foo[") (bytes "kept") true
      (Or.inl ⟨(), rfl⟩)).2.1,
    (applyJQ_compile_failure sampleExternals (.map []) (bytes ".foo[") (bytes "kept") true
      (Or.inl ⟨(), rfl⟩)).2.2,
    (applyJQ_compile_failure sampleExternals (.map []) (bytes "..bad") (bytes "kept") false
      (Or.inr ⟨bytes "..bad", (), rfl, rfl⟩)).2.1⟩

/-! ## Claim about `Run` -/

/-- C17 (code defect, option not defined): the flag set of `Run` defines `version` only, so
for every argument list that starts with `--jq`, among them `--jq .filename
testdata/basic.md` and `--jq .filename -r testdata/basic.md` of the tests, `FlagSet.Parse`
fails with `flag provided but not defined: -jq`; `Run` returns that error, writes nothing
to the output stream and reads no document, where the claim promises the projection of
`applyJQ` and no error. Without the option the
claim holds: `Run` on `testdata/basic.md` writes the marshalled assembled record and a
newline. -/
theorem Run_rejects_jq_option {ε : Type} (world : World ε) (outStream errStream : Str) :
    (∀ rest : List Str, Run world (bytes "--jq" :: rest) outStream errStream
      = some ⟨some (.flag (.notDefined (bytes "jq"))), outStream,
          errStream ++ world.flagReport (.notDefined (bytes "jq"))⟩) ∧
    Run world [bytes "--jq", bytes ".filename", bytes "testdata/basic.md"] outStream errStream
      = some ⟨some (.flag (.notDefined (bytes "jq"))), outStream,
          errStream ++ world.flagReport (.notDefined (bytes "jq"))⟩ ∧
    Run world [bytes "--jq", bytes ".filename", bytes "-r", bytes "testdata/basic.md"]
        outStream errStream
      = some ⟨some (.flag (.notDefined (bytes "jq"))), outStream,
          errStream ++ world.flagReport (.notDefined (bytes "jq"))⟩ ∧
    (∀ (data mtime text : Str) (r : ParseResult),
      world.readFile (bytes "testdata/basic.md") = .ok data →
      world.modTime (bytes "testdata/basic.md") = .ok mtime →
      parseFrontmatter world.decode data = some r →
      world.marshal (recordValue (buildResult r.props
          (TrimSuffix (world.base (bytes "testdata/basic.md")) (bytes ".md")) r.body
          (some mtime)).result) = .ok text →
      Run world [bytes "testdata/basic.md"] outStream errStream
        = some ⟨none, outStream ++ text ++ [10], warnConflicts r.props errStream⟩) := by
  refine ⟨fun _ => rfl, rfl, rfl, ?_⟩
  intro data mtime text r hread hstat hparse hmarshal
  have hflags : flagParse false [bytes "testdata/basic.md"]
      = .ok (false, [bytes "testdata/basic.md"]) := rfl
  have hnot : ¬ (bytes "testdata/basic.md" = bytes "-") := by decide
  unfold Run
  rw [hflags]
  simp only [Bool.false_eq_true, if_false, List.length_singleton, Nat.lt_one_iff,
    gt_iff_lt, Nat.zero_lt_one, if_true, processArgs, processArg, if_neg hnot, processFile,
    hread, hstat, hparse, Option.bind_eq_bind, Option.some_bind, writeJSON, hmarshal]

end Fmd2json
